import Mathlib

/-!
Verification of the shortest-path engine of the graph visualizer
(`ShortestPathVisualizer.dijkstra`, `ShortestPathVisualizer.bellman_ford`,
`ShortestPathVisualizer.is_path_edge`).

Modelling conventions, following the Python source line by line:

* A node id is a `String`; the graph stores the node-id list (the keys of the
  `self.nodes` dict, in insertion order) and the edge list (in insertion
  order).
* A tentative distance is an `Option Int`: `none` stands for `float('inf')`,
  `some d` for the finite value `d`.  `eadd` and `eltb` mirror Python's
  `+` and `<` on these values.
* The `distances` and `previous` dicts are total functions updated
  pointwise; the only dict access in the algorithms that can raise a
  `KeyError` is `previous[current]` during path reconstruction (the keys of
  `previous` are exactly the graph's nodes throughout), and `reconPath`
  reports exactly that case as `keyErr`.
* `min(unvisited, key=...)` iterates a Python set, whose order is
  unspecified; it is modelled as the first minimum in node insertion order
  (one admissible iteration order, the same one the spec's recommended
  deterministic reimplementation uses).
* The `while current is not None` reconstruction loop of the source can loop
  forever when the predecessor links contain a cycle; the model runs it with
  fuel `|nodes| + 1` and reports exhaustion as `diverge`.  The theorems
  below show the fuel suffices in every situation the claims speak about.
* Wall-clock timing (`execution_time`) and the constant `algorithm` name
  carry no algorithmic content and are omitted from the result record.
-/

namespace SPV

/-- Python `a + w` where `a` may be `float('inf')` (`none`). -/
def eadd : Option Int → Int → Option Int
  | none, _ => none
  | some a, w => some (a + w)

/-- Python `a < b` where either side may be `float('inf')` (`none`). -/
def eltb : Option Int → Option Int → Bool
  | none, _ => false
  | some _, none => true
  | some a, some b => decide (a < b)

/-- The non-strict companion of `eltb`: `a ≤ b` with `none` as `+∞`. -/
def ele : Option Int → Option Int → Prop
  | _, none => True
  | none, some _ => False
  | some a, some b => a ≤ b

instance : DecidablePred fun p : (Option Int) × (Option Int) => ele p.1 p.2 := by
  rintro ⟨a | a, b | b⟩ <;> simp only [ele] <;> infer_instance

/-- Pointwise update of a distance dict. -/
def updD (m : String → Option Int) (k : String) (v : Option Int) : String → Option Int :=
  fun x => if x = k then v else m x

/-- Pointwise update of a predecessor dict. -/
def updP (m : String → Option String) (k : String) (v : Option String) :
    String → Option String :=
  fun x => if x = k then v else m x

/-- An edge of the visualizer's graph: `Edge(from_node, to_node, weight)`,
keeping only the node ids and the weight (positions are rendering-only). -/
structure Edge where
  src : String
  dst : String
  weight : Int
deriving DecidableEq, Repr

/-- The graph snapshot: `self.nodes` keys in insertion order and
`self.edges` in insertion order. -/
structure Graph where
  nodes : List String
  edges : List Edge
deriving DecidableEq, Repr

/-- Every edge's endpoints name existing nodes (the graph invariant of the
spec's data model). -/
def EdgesValid (g : Graph) : Prop :=
  ∀ e ∈ g.edges, e.src ∈ g.nodes ∧ e.dst ∈ g.nodes

instance (g : Graph) : Decidable (EdgesValid g) := by
  unfold EdgesValid; infer_instance

/-- The adjacency list `graph[u]` that `dijkstra` builds from `self.edges`
with a `defaultdict(list)`: the `(neighbor, weight)` pairs of the edges
leaving `u`, in edge insertion order (missing keys give `[]`). -/
def adjOf (g : Graph) (u : String) : List (String × Int) :=
  (g.edges.filter (fun e => e.src == u)).map (fun e => (e.dst, e.weight))

/-- The working state of `dijkstra`'s main loop. -/
structure DState where
  dist : String → Option Int
  prev : String → Option String
  unvisited : List String
  visitOrder : List String

/-- The scan Python's `min` performs: keep the current best, replace it
when a later element's key is strictly smaller (so the first minimum
wins). -/
def minFold (dist : String → Option Int) (best : String) : List String → String
  | [] => best
  | y :: ys => minFold dist (if eltb (dist y) (dist best) then y else best) ys

/-- Python `min(unvisited, key=lambda node: distances[node])`: the first
element attaining the minimal distance, `none` on the empty collection. -/
def selectMin (dist : String → Option Int) : List String → Option String
  | [] => none
  | x :: xs => some (minFold dist x xs)

/-- The inner `for neighbor, weight in graph[current]` loop of `dijkstra`:
relax each pair against the evolving distance and predecessor dicts. -/
def relaxAdj (u : String)
    (dp : (String → Option Int) × (String → Option String)) :
    List (String × Int) → (String → Option Int) × (String → Option String)
  | [] => dp
  | (v, w) :: rest =>
    let alt := eadd (dp.1 u) w
    if eltb alt (dp.1 v) then
      relaxAdj u (updD dp.1 v alt, updP dp.2 v (some u)) rest
    else
      relaxAdj u dp rest

/-- The `while unvisited:` loop of `dijkstra`.  One fuel unit per
iteration; every continuing iteration removes the selected node from
`unvisited`, so fuel `|nodes|` always suffices (proved below). -/
def dijkstraLoop (adj : String → List (String × Int)) (startId endId : String) :
    Nat → DState → DState
  | 0, s => s
  | fuel + 1, s =>
    match selectMin s.dist s.unvisited with
    | none => s
    | some current =>
      if s.dist current = none then s
      else if current = endId then
        { s with unvisited := s.unvisited.erase current
                 visitOrder :=
                   if current ≠ startId then s.visitOrder ++ [current] else s.visitOrder }
      else
        dijkstraLoop adj startId endId fuel
          { dist := (relaxAdj current (s.dist, s.prev) (adj current)).1
            prev := (relaxAdj current (s.dist, s.prev) (adj current)).2
            unvisited := s.unvisited.erase current
            visitOrder :=
              if current ≠ startId then s.visitOrder ++ [current] else s.visitOrder }

/-- Result of the `while current is not None` path-reconstruction loop:
the rebuilt path, a `KeyError` on `previous[current]` (the id is not a key
of the dict, whose keys are exactly the graph's nodes), or fuel
exhaustion (the source would loop forever). -/
inductive ReconResult where
  | ok (path : List String)
  | keyErr
  | fuelOut
deriving DecidableEq, Repr

/-- Path reconstruction: walk `previous` backward from `endId`, prepending
each node (`path.insert(0, current)` before the `previous[current]`
lookup, exactly as in the source). -/
def reconPath (nodes : List String) (prev : String → Option String) :
    Nat → String → List String → ReconResult
  | 0, _, _ => .fuelOut
  | fuel + 1, current, acc =>
    if current ∈ nodes then
      match prev current with
      | none => .ok (current :: acc)
      | some u => reconPath nodes prev fuel u (current :: acc)
    else .keyErr

/-- The result dict an algorithm returns: either the ordinary record
(`distance`, `path`, `visit_order`; `distance` is `none` for
`float('inf')` and the path is then forced empty) or the
`'error': 'Negative cycle detected'` record, which carries neither a
path nor a distance. -/
inductive ResultDict where
  | ok (distance : Option Int) (path : List String) (visitOrder : List String)
  | negCycle
deriving DecidableEq, Repr

/-- The observable outcome of one query: a returned result dict, an
uncaught `KeyError`, or non-termination of the reconstruction loop. -/
inductive SPOutcome where
  | res (r : ResultDict)
  | keyError
  | diverge
deriving DecidableEq, Repr

/-- The initial `dijkstra` state: all distances `inf` except
`distances[start] = 0`, no predecessors, all nodes unvisited. -/
def dijkstraInit (g : Graph) (startId : String) : DState :=
  { dist := updD (fun _ => none) startId (some 0)
    prev := fun _ => none
    unvisited := g.nodes
    visitOrder := [] }

/-- The state of `dijkstra` when its main loop has finished. -/
def dijkstraFinalState (g : Graph) (startId endId : String) : DState :=
  dijkstraLoop (adjOf g) startId endId g.nodes.length (dijkstraInit g startId)

/-- `ShortestPathVisualizer.dijkstra(start, end)`. -/
def dijkstra (g : Graph) (startId endId : String) : SPOutcome :=
  match reconPath g.nodes (dijkstraFinalState g startId endId).prev
      (g.nodes.length + 1) endId [] with
  | .keyErr => .keyError
  | .fuelOut => .diverge
  | .ok p =>
    .res (.ok ((dijkstraFinalState g startId endId).dist endId)
      (if (dijkstraFinalState g startId endId).dist endId ≠ none then p else [])
      (dijkstraFinalState g startId endId).visitOrder)

/-- The working state of `bellman_ford`. -/
structure BState where
  dist : String → Option Int
  prev : String → Option String
  visitOrder : List String

/-- One relaxation pass of `bellman_ford`: `for edge in self.edges`, with
the `updated` flag threaded through. -/
def bfPass (startId : String) : List Edge → BState × Bool → BState × Bool
  | [], sb => sb
  | e :: rest, (s, updated) =>
    if s.dist e.src ≠ none then
      let alt := eadd (s.dist e.src) e.weight
      if eltb alt (s.dist e.dst) then
        let visitOrder' :=
          if ¬ e.dst ∈ s.visitOrder ∧ e.dst ≠ startId
          then s.visitOrder ++ [e.dst] else s.visitOrder
        bfPass startId rest
          ({ dist := updD s.dist e.dst alt
             prev := updP s.prev e.dst (some e.src)
             visitOrder := visitOrder' }, true)
      else bfPass startId rest (s, updated)
    else bfPass startId rest (s, updated)

/-- The `for _ in range(len(self.nodes) - 1)` pass loop of `bellman_ford`,
with the early `if not updated: break`. -/
def bfLoop (startId : String) (edges : List Edge) : Nat → BState → BState
  | 0, s => s
  | fuel + 1, s =>
    match bfPass startId edges (s, false) with
    | (s', updated) => if updated then bfLoop startId edges fuel s' else s'

/-- The negative-cycle scan of `bellman_ford`: one additional full pass
over the edges looking for a still-improving edge. -/
def negScan (dist : String → Option Int) (edges : List Edge) : Bool :=
  edges.any fun e =>
    if dist e.src ≠ none then eltb (eadd (dist e.src) e.weight) (dist e.dst) else false

/-- The initial `bellman_ford` state. -/
def bfInit (startId : String) : BState :=
  { dist := updD (fun _ => none) startId (some 0)
    prev := fun _ => none
    visitOrder := [] }

/-- The state of `bellman_ford` after its relaxation passes. -/
def bfFinalState (g : Graph) (startId : String) : BState :=
  bfLoop startId g.edges (g.nodes.length - 1) (bfInit startId)

/-- `ShortestPathVisualizer.bellman_ford(start, end)`. -/
def bellman_ford (g : Graph) (startId endId : String) : SPOutcome :=
  if negScan (bfFinalState g startId).dist g.edges then .res .negCycle
  else
    match reconPath g.nodes (bfFinalState g startId).prev (g.nodes.length + 1) endId [] with
    | .keyErr => .keyError
    | .fuelOut => .diverge
    | .ok p =>
      .res (.ok ((bfFinalState g startId).dist endId)
        (if (bfFinalState g startId).dist endId ≠ none then p else [])
        (bfFinalState g startId).visitOrder)

/-- The pair scan inside `is_path_edge`:
`for i in range(len(path) - 1): if path[i] == u and path[i+1] == v: return True`. -/
def pathScan : List String → String → String → Bool
  | a :: b :: rest, u, v => (a == u && b == v) || pathScan (b :: rest) u v
  | _, _, _ => false

/-- `ShortestPathVisualizer.is_path_edge(edge)` for the directed edge
`(u, v)`: `self.result` is `none` when no result is stored; the
negative-cycle dict has no `'path'` key, so it fails the
`'path' not in self.result` guard. -/
def is_path_edge (result : Option ResultDict) (u v : String) : Bool :=
  match result with
  | none => false
  | some .negCycle => false
  | some (.ok _ p _) => pathScan p u v

/-- The demo graph built in `ShortestPathVisualizer.__init__`
(spec scenarios 1 and 2). -/
def demoGraph : Graph :=
  { nodes := ["A", "B", "C", "D", "E"]
    edges :=
      [ ⟨"A", "B", 4⟩, ⟨"A", "E", 2⟩, ⟨"B", "C", 3⟩, ⟨"B", "D", 1⟩
      , ⟨"C", "D", 2⟩, ⟨"D", "E", 3⟩, ⟨"E", "B", 7⟩ ] }

/-- Spec scenario 4: the graph with the negative cycle Q→R→Q. -/
def pqrGraph : Graph :=
  { nodes := ["P", "Q", "R"]
    edges := [⟨"P", "Q", 1⟩, ⟨"Q", "R", -3⟩, ⟨"R", "Q", 1⟩] }

/-- Spec scenario 3: two nodes, a single edge X→Y(5). -/
def xyGraph : Graph :=
  { nodes := ["X", "Y"], edges := [⟨"X", "Y", 5⟩] }

/-- A valid graph with non-negative weights and two shortest S→T paths of
weight 3: S→A→T (relaxed first by `dijkstra`, whose settlement order is
S, A, B) and S→B→T (relaxed first by `bellman_ford`, whose edge order
lists B→T before A→T). -/
def twoPathGraph : Graph :=
  { nodes := ["S", "A", "B", "T"]
    edges := [⟨"S", "A", 1⟩, ⟨"S", "B", 2⟩, ⟨"B", "T", 1⟩, ⟨"A", "T", 2⟩] }

/-! ### Arithmetic of extended distances -/

theorem ele_refl (a : Option Int) : ele a a := by
  cases a <;> simp [ele]

theorem ele_none_right (a : Option Int) : ele a none := by
  cases a <;> simp [ele]

theorem ele_none_left {b : Option Int} (h : ele none b) : b = none := by
  cases b <;> simp_all [ele]

theorem ele_some_iff {a : Option Int} {x : Int} :
    ele a (some x) ↔ ∃ y, a = some y ∧ y ≤ x := by
  cases a <;> simp [ele]

theorem ele_trans {a b c : Option Int} (h1 : ele a b) (h2 : ele b c) : ele a c := by
  cases a <;> cases b <;> cases c <;> simp_all [ele] <;> omega

theorem eltb_false_iff {a b : Option Int} : eltb a b = false ↔ ele b a := by
  cases a <;> cases b <;> simp [eltb, ele] <;> omega

theorem eltb_true_ele {a b : Option Int} (h : eltb a b = true) : ele a b := by
  cases a <;> cases b <;> simp_all [eltb, ele] <;> omega

theorem eltb_irrefl (a : Option Int) : eltb a a = false := by
  rw [eltb_false_iff]; exact ele_refl a

theorem ele_eltb_false {a b c : Option Int} (h1 : ele a b) (h2 : eltb c a = true) :
    eltb c b = true := by
  cases a <;> cases b <;> cases c <;> simp_all [ele, eltb] <;> omega

theorem eltb_ele_false {a b c : Option Int} (h1 : ele a b) (h2 : eltb b c = true) :
    eltb a c = true := by
  cases a <;> cases b <;> cases c <;> simp_all [ele, eltb] <;> omega

theorem eltb_asymm {a b : Option Int} (h1 : ele a b) (h2 : eltb b a = true) : False := by
  cases a <;> cases b <;> simp_all [ele, eltb] <;> omega

theorem eadd_mono {a b : Option Int} (w : Int) (h : ele a b) :
    ele (eadd a w) (eadd b w) := by
  cases a <;> cases b <;> simp_all [ele, eadd] <;> omega

theorem ele_self_eadd {a : Option Int} {w : Int} (hw : 0 ≤ w) : ele a (eadd a w) := by
  cases a <;> simp [ele, eadd] <;> omega

theorem eadd_some {a : Option Int} {x w : Int} (h : eadd a w = some x) :
    ∃ y, a = some y ∧ x = y + w := by
  cases a <;> simp_all [eadd]

theorem eltb_some_left {a b : Option Int} (h : eltb a b = true) : ∃ x, a = some x := by
  cases a <;> simp_all [eltb]

/-! ### Dict updates -/

theorem updD_same (m : String → Option Int) (k : String) (v : Option Int) :
    updD m k v k = v := by
  simp [updD]

theorem updD_ne (m : String → Option Int) (k : String) (v : Option Int) {x : String}
    (h : x ≠ k) : updD m k v x = m x := by
  simp [updD, h]

theorem updP_same (m : String → Option String) (k : String) (v : Option String) :
    updP m k v k = v := by
  simp [updP]

theorem updP_ne (m : String → Option String) (k : String) (v : Option String) {x : String}
    (h : x ≠ k) : updP m k v x = m x := by
  simp [updP, h]

/-! ### The minimum selection -/

theorem minFold_mem (dist : String → Option Int) :
    ∀ (xs : List String) (best : String),
      minFold dist best xs = best ∨ minFold dist best xs ∈ xs := by
  intro xs
  induction xs with
  | nil => intro best; left; rfl
  | cons y ys ih =>
    intro best
    simp only [minFold]
    rcases ih (if eltb (dist y) (dist best) then y else best) with h | h
    · rw [h]
      split
      · right; simp
      · left; rfl
    · right; simp [h]

theorem minFold_min (dist : String → Option Int) :
    ∀ (xs : List String) (best : String),
      ele (dist (minFold dist best xs)) (dist best) ∧
      ∀ x ∈ xs, ele (dist (minFold dist best xs)) (dist x) := by
  intro xs
  induction xs with
  | nil => intro best; exact ⟨ele_refl _, by simp⟩
  | cons y ys ih =>
    intro best
    cases hlt : eltb (dist y) (dist best) with
    | true =>
      obtain ⟨h1, h2⟩ := ih y
      have hm : minFold dist best (y :: ys) = minFold dist y ys := by
        simp [minFold, hlt]
      rw [hm]
      refine ⟨ele_trans h1 (eltb_true_ele hlt), ?_⟩
      intro x hx
      rcases List.mem_cons.mp hx with rfl | hx
      · exact h1
      · exact h2 x hx
    | false =>
      obtain ⟨h1, h2⟩ := ih best
      have hm : minFold dist best (y :: ys) = minFold dist best ys := by
        simp [minFold, hlt]
      rw [hm]
      refine ⟨h1, ?_⟩
      intro x hx
      rcases List.mem_cons.mp hx with rfl | hx
      · exact ele_trans h1 (eltb_false_iff.mp hlt)
      · exact h2 x hx

theorem selectMin_eq_none {dist : String → Option Int} {l : List String} :
    selectMin dist l = none ↔ l = [] := by
  cases l <;> simp [selectMin]

theorem selectMin_mem {dist : String → Option Int} {l : List String} {c : String}
    (h : selectMin dist l = some c) : c ∈ l := by
  cases l with
  | nil => simp [selectMin] at h
  | cons x xs =>
    simp only [selectMin, Option.some.injEq] at h
    subst h
    rcases minFold_mem dist xs x with h | h
    · rw [h]; simp
    · simp [h]

theorem selectMin_min {dist : String → Option Int} {l : List String} {c : String}
    (h : selectMin dist l = some c) : ∀ x ∈ l, ele (dist c) (dist x) := by
  cases l with
  | nil => simp [selectMin] at h
  | cons x xs =>
    simp only [selectMin, Option.some.injEq] at h
    subst h
    obtain ⟨h1, h2⟩ := minFold_min dist xs x
    intro z hz
    rcases List.mem_cons.mp hz with rfl | hz
    · exact h1
    · exact h2 z hz

/-! ### Walks in the graph

A walk is a list of consecutive edges of the graph; `EChain g u v es`
says `es` leads from `u` to `v`.  Shortest-path optimality of both
algorithms and the meaning of "negative cycle reachable from the start"
are stated over these walks. -/

/-- Total weight of a list of edges. -/
def chainWeight (es : List Edge) : Int := (es.map Edge.weight).sum

/-- A walk from `u` to `v` along edges of `g`. -/
inductive EChain (g : Graph) : String → String → List Edge → Prop
  | nil (u : String) : EChain g u u []
  | cons {v : String} (e : Edge) {es : List Edge} :
      e ∈ g.edges → EChain g e.dst v es → EChain g e.src v (e :: es)

/-- The node `u` is reachable from `s` in `g`. -/
def Reach (g : Graph) (s u : String) : Prop := ∃ es, EChain g s u es

/-- No negative cycle is reachable from `s`: every non-empty closed walk
whose base point is reachable from `s` has non-negative weight.  (A
negative cycle is a special closed walk, and every negative closed walk
contains a negative cycle, so this is the usual notion.) -/
def NoNegCycleFrom (g : Graph) (s : String) : Prop :=
  ∀ u es, Reach g s u → EChain g u u es → es ≠ [] → 0 ≤ chainWeight es

theorem chainWeight_nil : chainWeight [] = 0 := rfl

theorem chainWeight_cons (e : Edge) (es : List Edge) :
    chainWeight (e :: es) = e.weight + chainWeight es := by
  simp [chainWeight]

theorem chainWeight_append (es1 es2 : List Edge) :
    chainWeight (es1 ++ es2) = chainWeight es1 + chainWeight es2 := by
  simp [chainWeight]

theorem EChain.append {g : Graph} {u m v : String} {es1 es2 : List Edge}
    (h1 : EChain g u m es1) (h2 : EChain g m v es2) :
    EChain g u v (es1 ++ es2) := by
  induction h1 with
  | nil => simpa using h2
  | cons e he _ ih => exact EChain.cons e he (ih h2)

theorem EChain.nil_eq {g : Graph} {u v : String} (h : EChain g u v []) : u = v := by
  cases h; rfl

theorem EChain.edges_mem {g : Graph} {u v : String} {es : List Edge}
    (h : EChain g u v es) : ∀ e ∈ es, e ∈ g.edges := by
  induction h with
  | nil => simp
  | cons e he _ ih =>
    intro f hf
    rcases List.mem_cons.mp hf with rfl | hf
    · exact he
    · exact ih f hf

/-- The node sequence a walk visits: the start, then each edge's target. -/
def chainVerts (u : String) (es : List Edge) : List String :=
  u :: es.map Edge.dst

theorem chainVerts_subset {g : Graph} {u v : String} {es : List Edge}
    (hg : EdgesValid g) (h : EChain g u v es) (hu : u ∈ g.nodes) :
    ∀ z ∈ chainVerts u es, z ∈ g.nodes := by
  intro z hz
  rcases List.mem_cons.mp hz with rfl | hz
  · exact hu
  · obtain ⟨e, he, rfl⟩ := List.mem_map.mp hz
    exact (hg e (h.edges_mem e he)).2

theorem EChain.last_mem_verts {g : Graph} {u v : String} {es : List Edge}
    (h : EChain g u v es) : v ∈ chainVerts u es := by
  induction h with
  | nil => simp [chainVerts]
  | cons e _ _ ih =>
    rcases List.mem_cons.mp ih with rfl | hm
    · simp [chainVerts]
    · simp only [chainVerts, List.map_cons]
      exact List.mem_cons_of_mem _ (List.mem_cons_of_mem _ hm)

/-- Splitting a walk at any visited node. -/
theorem EChain.split_at {g : Graph} {u v x : String} {es : List Edge}
    (h : EChain g u v es) (hx : x ∈ chainVerts u es) :
    ∃ es1 es2, es = es1 ++ es2 ∧ EChain g u x es1 ∧ EChain g x v es2 := by
  induction h with
  | nil =>
    simp only [chainVerts, List.map_nil, List.mem_singleton] at hx
    subst hx
    exact ⟨[], [], rfl, EChain.nil x, EChain.nil x⟩
  | cons e he hch ih =>
    rcases List.mem_cons.mp hx with rfl | hx
    · exact ⟨[], _, rfl, EChain.nil _, EChain.cons e he hch⟩
    · obtain ⟨es1, es2, rfl, h1, h2⟩ := ih hx
      exact ⟨e :: es1, es2, rfl, EChain.cons e he h1, h2⟩

/-- A walk whose node sequence repeats a node contains a non-empty closed
sub-walk around that node. -/
theorem EChain.dup_split {g : Graph} {u v : String} {es : List Edge}
    (h : EChain g u v es) (hdup : ¬ (chainVerts u es).Nodup) :
    ∃ x es1 es2 es3, es = es1 ++ es2 ++ es3 ∧
      EChain g u x es1 ∧ EChain g x x es2 ∧ EChain g x v es3 ∧ es2 ≠ [] := by
  induction h with
  | nil => simp [chainVerts] at hdup
  | cons e he hch ih =>
    rename_i w tail
    have hverts : chainVerts e.src (e :: tail) = e.src :: chainVerts e.dst tail := by
      simp [chainVerts]
    rw [hverts, List.nodup_cons] at hdup
    push_neg at hdup
    by_cases hmem : e.src ∈ chainVerts e.dst tail
    · obtain ⟨esa, esb, rfl, h1, h2⟩ := hch.split_at hmem
      exact ⟨e.src, [], e :: esa, esb, by simp, EChain.nil _,
        EChain.cons e he h1, h2, by simp⟩
    · have htail : ¬ (chainVerts e.dst tail).Nodup := fun hn => (hdup hmem).elim hn
      obtain ⟨x, es1, es2, es3, rfl, h1, h2, h3, hne⟩ := ih htail
      exact ⟨x, e :: es1, es2, es3, by simp, EChain.cons e he h1, h2, h3, hne⟩

/-- A walk with pairwise distinct nodes over a graph with `n` nodes has
fewer than `n` edges. -/
theorem EChain.length_lt_of_nodup {g : Graph} {u v : String} {es : List Edge}
    (hg : EdgesValid g) (h : EChain g u v es) (hu : u ∈ g.nodes)
    (hnd : (chainVerts u es).Nodup) : es.length < g.nodes.length := by
  have hsub : chainVerts u es ⊆ g.nodes := fun z hz => chainVerts_subset hg h hu z hz
  have := (List.subperm_of_subset hnd hsub).length_le
  simpa [chainVerts] using this

theorem Reach.extend {g : Graph} {s u x : String} {es : List Edge}
    (hr : Reach g s u) (h : EChain g u x es) : Reach g s x := by
  obtain ⟨es0, h0⟩ := hr
  exact ⟨es0 ++ es, h0.append h⟩

theorem EChain.shorten_aux {g : Graph} {s : String}
    (hg : EdgesValid g) (hnc : NoNegCycleFrom g s) :
    ∀ (n : Nat) (u v : String) (es : List Edge), es.length ≤ n →
      Reach g s u → u ∈ g.nodes → EChain g u v es →
      ∃ es', EChain g u v es' ∧ chainWeight es' ≤ chainWeight es ∧
        es'.length < g.nodes.length := by
  intro n
  induction n with
  | zero =>
    intro u v es hlen hr hu hch
    have hes : es = [] := List.length_eq_zero.mp (Nat.le_zero.mp hlen)
    subst hes
    refine ⟨[], hch, le_refl _, ?_⟩
    exact hch.length_lt_of_nodup hg hu (by simp [chainVerts])
  | succ n ih =>
    intro u v es hlen hr hu hch
    by_cases hnd : (chainVerts u es).Nodup
    · exact ⟨es, hch, le_refl _, hch.length_lt_of_nodup hg hu hnd⟩
    · obtain ⟨x, es1, es2, es3, rfl, h1, h2, h3, hne⟩ := hch.dup_split hnd
      have hw2 : 0 ≤ chainWeight es2 := hnc x es2 (hr.extend h1) h2 hne
      have hch' : EChain g u v (es1 ++ es3) := h1.append h3
      have h2pos : 0 < es2.length := List.length_pos.mpr hne
      have hlen' : (es1 ++ es3).length ≤ n := by
        simp only [List.length_append] at hlen ⊢
        omega
      obtain ⟨es', hch'', hw', hlt⟩ := ih u v (es1 ++ es3) hlen' hr hu hch'
      refine ⟨es', hch'', ?_, hlt⟩
      have hsplit : chainWeight (es1 ++ es2 ++ es3) =
          chainWeight es1 + chainWeight es2 + chainWeight es3 := by
        rw [chainWeight_append, chainWeight_append]
      have hsplit' : chainWeight (es1 ++ es3) = chainWeight es1 + chainWeight es3 :=
        chainWeight_append es1 es3
      omega

/-- Walk shortening: when no negative cycle is reachable from `s`, every
walk from a reachable `u` to `v` can be replaced by one with fewer than
`|nodes|` edges and no greater weight. -/
theorem EChain.shorten {g : Graph} {s u v : String} {es : List Edge}
    (hg : EdgesValid g) (hnc : NoNegCycleFrom g s) (hr : Reach g s u)
    (hu : u ∈ g.nodes) (hch : EChain g u v es) :
    ∃ es', EChain g u v es' ∧ chainWeight es' ≤ chainWeight es ∧
      es'.length < g.nodes.length :=
  EChain.shorten_aux hg hnc es.length u v es (le_refl _) hr hu hch

/-- Non-negative edge weights give non-negative walk weights, hence no
negative cycle anywhere. -/
theorem chainWeight_nonneg {g : Graph} {u v : String} {es : List Edge}
    (hnn : ∀ e ∈ g.edges, 0 ≤ e.weight) (h : EChain g u v es) :
    0 ≤ chainWeight es := by
  induction h with
  | nil => simp [chainWeight]
  | cons e he _ ih =>
    rw [chainWeight_cons]
    have := hnn e he
    omega

theorem noNegCycleFrom_of_nonneg {g : Graph} (s : String)
    (hnn : ∀ e ∈ g.edges, 0 ≤ e.weight) : NoNegCycleFrom g s :=
  fun _ _ _ hch _ => chainWeight_nonneg hnn hch

/-! ### Predecessor chains

`prevIter prev k v` follows the predecessor dict `k` steps from `v`
(`none` when a node without predecessor is passed).  The reconstruction
loop of the source terminates exactly when these chains do. -/

def prevIter (prev : String → Option String) : Nat → String → Option String
  | 0, v => some v
  | k + 1, v =>
    match prev v with
    | none => none
    | some u => prevIter prev k u

theorem prevIter_add (prev : String → Option String) :
    ∀ (a b : Nat) (v : String),
      prevIter prev (a + b) v =
        match prevIter prev a v with
        | none => none
        | some u => prevIter prev b u := by
  intro a
  induction a with
  | zero => intro b v; simp [prevIter]
  | succ a ih =>
    intro b v
    have hs : a + 1 + b = (a + b) + 1 := by omega
    rw [hs]
    simp only [prevIter]
    cases prev v with
    | none => rfl
    | some u => exact ih b u

/-! ### Invariants preserved by a single relaxation

Both algorithms change `(distances, previous)` only through the update
`distances[v] = distances[u] + w; previous[v] = u`, guarded by
`distances[u] + w < distances[v]`, for an edge `(u, v, w)` of the graph.
Everything the claims need about the dicts is an invariant of that
single update. -/

/-- Sign-independent invariants of the working dicts. -/
structure RelaxInv (g : Graph) (s : String)
    (dist : String → Option Int) (prev : String → Option String) : Prop where
  finite : ∀ v u, prev v = some u → dist v ≠ none ∧ dist u ≠ none
  edge : ∀ v u, prev v = some u → ∃ e ∈ g.edges, e.src = u ∧ e.dst = v
  start : ∀ v, dist v ≠ none → prev v = none → v = s
  sound : ∀ v d, dist v = some d → ∃ es, EChain g s v es ∧ chainWeight es = d
  sLe : ∃ d, d ≤ 0 ∧ dist s = some d
  sStrict : prev s ≠ none → ∀ d, dist s = some d → d < 0

/-- Additional invariants available when all edge weights are
non-negative; `noCyc` is what makes path reconstruction terminate. -/
structure NonnegInv (dist : String → Option Int) (prev : String → Option String) : Prop where
  nn : ∀ v d, dist v = some d → 0 ≤ d
  mono : ∀ v u, prev v = some u → ele (dist u) (dist v)
  noCyc : ∀ v k, prevIter prev (k + 1) v ≠ some v

theorem relaxInv_init (g : Graph) (s : String) :
    RelaxInv g s (updD (fun _ => none) s (some 0)) (fun _ => none) := by
  constructor
  · intro v u h; cases h
  · intro v u h; cases h
  · intro v hv _
    by_contra hne
    rw [updD_ne _ _ _ hne] at hv
    exact hv rfl
  · intro v d hv
    by_cases hvs : v = s
    · subst hvs
      rw [updD_same] at hv
      exact ⟨[], EChain.nil v, by rw [chainWeight_nil]; exact Option.some.inj hv⟩
    · rw [updD_ne _ _ _ hvs] at hv; cases hv
  · exact ⟨0, le_refl 0, updD_same _ _ _⟩
  · intro h; exact absurd rfl h

theorem nonnegInv_init (s : String) :
    NonnegInv (updD (fun _ => none) s (some 0)) (fun _ => none) := by
  constructor
  · intro v d hv
    by_cases hvs : v = s
    · subst hvs
      rw [updD_same] at hv
      injection hv with h
      omega
    · rw [updD_ne _ _ _ hvs] at hv; cases hv
  · intro v u h; cases h
  · intro v k
    simp [prevIter]

/-- The side conditions of one relaxation update. -/
structure RelaxTrigger (g : Graph) (dist : String → Option Int)
    (u v : String) (w : Int) : Prop where
  edge : ∃ e ∈ g.edges, e.src = u ∧ e.dst = v ∧ e.weight = w
  lt : eltb (eadd (dist u) w) (dist v) = true

theorem RelaxTrigger.src_some {g : Graph} {dist : String → Option Int}
    {u v : String} {w : Int} (h : RelaxTrigger g dist u v w) :
    ∃ du, dist u = some du := by
  obtain ⟨x, hx⟩ := eltb_some_left h.lt
  obtain ⟨du, hdu, _⟩ := eadd_some hx
  exact ⟨du, hdu⟩

theorem RelaxInv.preserve {g : Graph} {s : String} {dist : String → Option Int}
    {prev : String → Option String} (inv : RelaxInv g s dist prev)
    {u v : String} {w : Int} (tr : RelaxTrigger g dist u v w) :
    RelaxInv g s (updD dist v (eadd (dist u) w)) (updP prev v (some u)) := by
  obtain ⟨du, hdu⟩ := tr.src_some
  have halt : eadd (dist u) w = some (du + w) := by rw [hdu]; rfl
  constructor
  · intro x y hxy
    by_cases hxv : x = v
    · subst hxv
      rw [updP_same] at hxy
      injection hxy with hxy
      subst hxy
      constructor
      · rw [updD_same, halt]; exact Option.some_ne_none _
      · by_cases hyv : u = x
        · rw [hyv] at halt ⊢; rw [updD_same, halt]; exact Option.some_ne_none _
        · rw [updD_ne _ _ _ hyv, hdu]; exact Option.some_ne_none _
    · rw [updP_ne _ _ _ hxv] at hxy
      obtain ⟨h1, h2⟩ := inv.finite x y hxy
      constructor
      · rwa [updD_ne _ _ _ hxv]
      · by_cases hyv : y = v
        · subst hyv; rw [updD_same, halt]; exact Option.some_ne_none _
        · rwa [updD_ne _ _ _ hyv]
  · intro x y hxy
    by_cases hxv : x = v
    · subst hxv
      rw [updP_same] at hxy
      injection hxy with hxy
      subst hxy
      obtain ⟨e, he, h1, h2, _⟩ := tr.edge
      exact ⟨e, he, h1, h2⟩
    · rw [updP_ne _ _ _ hxv] at hxy
      exact inv.edge x y hxy
  · intro x hx hp
    by_cases hxv : x = v
    · subst hxv
      rw [updP_same] at hp
      cases hp
    · rw [updD_ne _ _ _ hxv] at hx
      rw [updP_ne _ _ _ hxv] at hp
      exact inv.start x hx hp
  · intro x d hx
    by_cases hxv : x = v
    · subst hxv
      rw [updD_same, halt] at hx
      injection hx with hx
      obtain ⟨es, hes, hw⟩ := inv.sound u du hdu
      obtain ⟨e, he, h1, h2, h3⟩ := tr.edge
      refine ⟨es ++ [e], ?_, ?_⟩
      · refine hes.append ?_
        have : EChain g e.src e.dst [e] := EChain.cons e he (EChain.nil e.dst)
        rwa [h1, h2] at this
      · rw [chainWeight_append, hw, chainWeight_cons, chainWeight_nil, h3]
        omega
    · rw [updD_ne _ _ _ hxv] at hx
      exact inv.sound x d hx
  · obtain ⟨d0, hd0, hds⟩ := inv.sLe
    by_cases hsv : s = v
    · subst hsv
      refine ⟨du + w, ?_, by rw [updD_same, halt]⟩
      have := tr.lt
      rw [halt, hds] at this
      simp only [eltb, decide_eq_true_eq] at this
      omega
    · exact ⟨d0, hd0, by rwa [updD_ne _ _ _ hsv]⟩
  · intro hp d hd
    by_cases hsv : s = v
    · subst hsv
      rw [updD_same, halt] at hd
      injection hd with hd
      obtain ⟨d0, hd0, hds⟩ := inv.sLe
      have := tr.lt
      rw [halt, hds] at this
      simp only [eltb, decide_eq_true_eq] at this
      omega
    · rw [updD_ne _ _ _ hsv] at hd
      rw [updP_ne _ _ _ hsv] at hp
      exact inv.sStrict hp d hd

/-- Along a predecessor chain the distances never increase (given the
`mono` invariant). -/
theorem prevIter_ele {dist : String → Option Int} {prev : String → Option String}
    (hmono : ∀ v u, prev v = some u → ele (dist u) (dist v)) :
    ∀ (k : Nat) (x y : String), prevIter prev k x = some y → ele (dist y) (dist x) := by
  intro k
  induction k with
  | zero =>
    intro x y h
    injection h with h
    subst h
    exact ele_refl _
  | succ k ih =>
    intro x y h
    simp only [prevIter] at h
    cases hp : prev x with
    | none => rw [hp] at h; cases h
    | some u =>
      rw [hp] at h
      exact ele_trans (ih u y h) (hmono x u hp)

/-- If the updated predecessor map reaches `b` from `x`, then either
`x = b` or the original map already reached `b` from `x`. -/
theorem prevIter_upd_reach {prev : String → Option String} {b a : String} :
    ∀ (k : Nat) (x : String), prevIter (updP prev b (some a)) k x = some b →
      x = b ∨ ∃ j, 1 ≤ j ∧ prevIter prev j x = some b := by
  intro k
  induction k with
  | zero =>
    intro x h
    injection h with h
    left
    exact h
  | succ k ih =>
    intro x h
    simp only [prevIter] at h
    by_cases hxb : x = b
    · left; exact hxb
    · rw [updP_ne _ _ _ hxb] at h
      cases hp : prev x with
      | none => rw [hp] at h; cases h
      | some y =>
        rw [hp] at h
        rcases ih y h with rfl | ⟨j, hj1, hj⟩
        · right
          exact ⟨1, le_refl 1, by simp [prevIter, hp]⟩
        · right
          refine ⟨j + 1, by omega, ?_⟩
          simp only [prevIter, hp]
          exact hj

/-- A chain of the updated predecessor map either avoids the rebound node
`b` entirely (and is a chain of the original map) or passes through the
new link `b ↦ a`. -/
theorem prevIter_upd_split {prev : String → Option String} {b a : String} :
    ∀ (k : Nat) (x y : String), prevIter (updP prev b (some a)) k x = some y →
      prevIter prev k x = some y ∨
      ∃ i j, prevIter (updP prev b (some a)) i x = some b ∧
        prevIter (updP prev b (some a)) j a = some y := by
  intro k
  induction k with
  | zero => intro x y h; left; exact h
  | succ k ih =>
    intro x y h
    simp only [prevIter] at h
    by_cases hxb : x = b
    · right
      refine ⟨0, k, by simp [prevIter, hxb], ?_⟩
      rw [hxb] at h
      rw [updP_same] at h
      exact h
    · rw [updP_ne _ _ _ hxb] at h
      cases hp : prev x with
      | none => rw [hp] at h; cases h
      | some z =>
        rw [hp] at h
        rcases ih z y h with hold | ⟨i, j, hib, hja⟩
        · left
          simp only [prevIter, hp]
          exact hold
        · right
          refine ⟨i + 1, j, ?_, hja⟩
          simp only [prevIter, updP_ne _ _ _ hxb, hp]
          exact hib

theorem NonnegInv.preserveNN {g : Graph} {dist : String → Option Int}
    {prev : String → Option String} (nv : NonnegInv dist prev)
    {u v : String} {w : Int} (hw : 0 ≤ w) (tr : RelaxTrigger g dist u v w) :
    NonnegInv (updD dist v (eadd (dist u) w)) (updP prev v (some u)) := by
  obtain ⟨du, hdu⟩ := tr.src_some
  have halt : eadd (dist u) w = some (du + w) := by rw [hdu]; rfl
  have hnnu : 0 ≤ du := nv.nn u du hdu
  have huv : u ≠ v := by
    intro heq
    have hlt := tr.lt
    rw [halt, ← heq, hdu] at hlt
    simp only [eltb, decide_eq_true_eq] at hlt
    omega
  constructor
  · intro x d hx
    by_cases hxv : x = v
    · rw [hxv, updD_same, halt] at hx
      injection hx with hx
      omega
    · rw [updD_ne _ _ _ hxv] at hx
      exact nv.nn x d hx
  · intro x y hxy
    by_cases hxv : x = v
    · rw [hxv, updP_same] at hxy
      injection hxy with hxy
      rw [hxv, ← hxy]
      rw [updD_same, halt, updD_ne _ _ _ huv, hdu]
      simp only [ele]
      omega
    · rw [updP_ne _ _ _ hxv] at hxy
      have hold := nv.mono x y hxy
      rw [updD_ne _ _ _ hxv]
      by_cases hyv : y = v
      · rw [hyv, updD_same, halt]
        rw [hyv] at hold
        exact ele_trans (eltb_true_ele (halt ▸ tr.lt)) hold
      · rw [updD_ne _ _ _ hyv]
        exact hold
  · intro z k hcyc
    rcases prevIter_upd_split (k + 1) z z hcyc with hold | ⟨i, j, hib, hja⟩
    · exact nv.noCyc z k hold
    · have hcomb : prevIter (updP prev v (some u)) (j + i) u = some v := by
        rw [prevIter_add, hja]
        exact hib
      rcases prevIter_upd_reach (j + i) u hcomb with huveq | ⟨m, _, hmold⟩
      · exact huv huveq
      · have htel := prevIter_ele nv.mono m u v hmold
        rw [hdu] at htel
        obtain ⟨dv, hdv, hdvle⟩ := ele_some_iff.mp htel
        have hlt := tr.lt
        rw [halt, hdv] at hlt
        simp only [eltb, decide_eq_true_eq] at hlt
        omega

/-! ### The adjacency list -/

theorem adjOf_mem {g : Graph} {u v : String} {w : Int}
    (h : (v, w) ∈ adjOf g u) : ∃ e ∈ g.edges, e.src = u ∧ e.dst = v ∧ e.weight = w := by
  obtain ⟨e, he, heq⟩ := List.mem_map.mp h
  obtain ⟨he1, he2⟩ := List.mem_filter.mp he
  injection heq with h1 h2
  exact ⟨e, he1, by simpa using he2, h1, h2⟩

theorem adjOf_complete {g : Graph} {e : Edge} (he : e ∈ g.edges) {u : String}
    (hu : e.src = u) : (e.dst, e.weight) ∈ adjOf g u := by
  apply List.mem_map.mpr
  exact ⟨e, List.mem_filter.mpr ⟨he, by simp [hu]⟩, rfl⟩

/-! ### The inner relaxation loop of `dijkstra` -/

/-- One relaxation update can only lower a distance. -/
theorem upd_dist_ele {dist : String → Option Int} {v : String} {alt : Option Int}
    (ht : eltb alt (dist v) = true) : ∀ x, ele (updD dist v alt x) (dist x) := by
  intro x
  by_cases hxv : x = v
  · rw [hxv, updD_same]
    exact eltb_true_ele ht
  · rw [updD_ne _ _ _ hxv]
    exact ele_refl _

/-- The pairs handed to `relaxAdj` all come from edges of the graph
leaving `u`. -/
def PairsFrom (g : Graph) (u : String) (pairs : List (String × Int)) : Prop :=
  ∀ p ∈ pairs, ∃ e ∈ g.edges, e.src = u ∧ e.dst = p.1 ∧ e.weight = p.2

theorem pairsFrom_adjOf (g : Graph) (u : String) : PairsFrom g u (adjOf g u) := by
  intro p hp
  obtain ⟨e, he, h1, h2, h3⟩ := adjOf_mem (u := u) (v := p.1) (w := p.2) (by
    cases p; exact hp)
  exact ⟨e, he, h1, h2, h3⟩

theorem relaxAdj_relaxInv {g : Graph} {s u : String} :
    ∀ (pairs : List (String × Int)) (dp : (String → Option Int) × (String → Option String)),
      PairsFrom g u pairs → RelaxInv g s dp.1 dp.2 →
      RelaxInv g s (relaxAdj u dp pairs).1 (relaxAdj u dp pairs).2 := by
  intro pairs
  induction pairs with
  | nil => intro dp _ inv; exact inv
  | cons p rest ih =>
    intro dp hp inv
    obtain ⟨v, w⟩ := p
    obtain ⟨dist, prev⟩ := dp
    simp only [relaxAdj]
    cases ht : eltb (eadd (dist u) w) (dist v) with
    | true =>
      rw [if_pos rfl]
      apply ih _ (fun q hq => hp q (List.mem_cons_of_mem _ hq))
      exact inv.preserve ⟨hp (v, w) (List.mem_cons_self _ _), ht⟩
    | false =>
      rw [if_neg (by simp)]
      exact ih _ (fun q hq => hp q (List.mem_cons_of_mem _ hq)) inv

theorem relaxAdj_nonnegInv {g : Graph} {u : String}
    (hnn : ∀ e ∈ g.edges, 0 ≤ e.weight) :
    ∀ (pairs : List (String × Int)) (dp : (String → Option Int) × (String → Option String)),
      PairsFrom g u pairs → NonnegInv dp.1 dp.2 →
      NonnegInv (relaxAdj u dp pairs).1 (relaxAdj u dp pairs).2 := by
  intro pairs
  induction pairs with
  | nil => intro dp _ inv; exact inv
  | cons p rest ih =>
    intro dp hp inv
    obtain ⟨v, w⟩ := p
    obtain ⟨dist, prev⟩ := dp
    simp only [relaxAdj]
    cases ht : eltb (eadd (dist u) w) (dist v) with
    | true =>
      rw [if_pos rfl]
      apply ih _ (fun q hq => hp q (List.mem_cons_of_mem _ hq))
      have hedge := hp (v, w) (List.mem_cons_self _ _)
      have hw : 0 ≤ w := by
        obtain ⟨e, he, _, _, hew⟩ := hedge
        have hew' : e.weight = w := hew
        rw [← hew']
        exact hnn e he
      exact inv.preserveNN hw ⟨hedge, ht⟩
    | false =>
      rw [if_neg (by simp)]
      exact ih _ (fun q hq => hp q (List.mem_cons_of_mem _ hq)) inv

/-- The whole inner loop only lowers distances. -/
theorem relaxAdj_dist_ele {u : String} :
    ∀ (pairs : List (String × Int)) (dp : (String → Option Int) × (String → Option String))
      (x : String), ele ((relaxAdj u dp pairs).1 x) (dp.1 x) := by
  intro pairs
  induction pairs with
  | nil => intro dp x; exact ele_refl _
  | cons p rest ih =>
    intro dp x
    obtain ⟨v, w⟩ := p
    obtain ⟨dist, prev⟩ := dp
    simp only [relaxAdj]
    cases ht : eltb (eadd (dist u) w) (dist v) with
    | true =>
      rw [if_pos rfl]
      exact ele_trans (ih _ x) (upd_dist_ele ht x)
    | false =>
      rw [if_neg (by simp)]
      exact ih _ x

/-- With non-negative weights the distance of the relaxing node itself
never changes during its own inner loop. -/
theorem relaxAdj_src_const {u : String} {ws : List (String × Int)}
    (hnn : ∀ p ∈ ws, 0 ≤ p.2) :
    ∀ (dp : (String → Option Int) × (String → Option String)),
      (relaxAdj u dp ws).1 u = dp.1 u := by
  induction ws with
  | nil => intro dp; rfl
  | cons p rest ih =>
    intro dp
    obtain ⟨v, w⟩ := p
    obtain ⟨dist, prev⟩ := dp
    have hw : 0 ≤ w := hnn (v, w) (List.mem_cons_self _ _)
    have ihr := fun dp => ih (fun q hq => hnn q (List.mem_cons_of_mem _ hq)) dp
    simp only [relaxAdj]
    cases ht : eltb (eadd (dist u) w) (dist v) with
    | true =>
      rw [if_pos rfl]
      rw [ihr _]
      by_cases huv : u = v
      · exfalso
        rw [← huv] at ht
        cases hdu : dist u with
        | none => rw [hdu] at ht; simp [eadd, eltb] at ht
        | some du =>
          rw [hdu] at ht
          simp only [eadd, eltb, decide_eq_true_eq] at ht
          omega
      · exact updD_ne _ _ _ huv
    | false =>
      rw [if_neg (by simp)]
      exact ihr _

/-- A node whose distance is already no larger than the relaxing node's
is never touched by the inner loop (non-negative weights). -/
theorem relaxAdj_protected {u : String} {ws : List (String × Int)}
    (hnn : ∀ p ∈ ws, 0 ≤ p.2) :
    ∀ (dp : (String → Option Int) × (String → Option String)) (x : String),
      ele (dp.1 x) (dp.1 u) → (relaxAdj u dp ws).1 x = dp.1 x := by
  induction ws with
  | nil => intro dp x _; rfl
  | cons p rest ih =>
    intro dp x hle
    obtain ⟨v, w⟩ := p
    obtain ⟨dist, prev⟩ := dp
    have hw : 0 ≤ w := hnn (v, w) (List.mem_cons_self _ _)
    have ihr := ih (fun q hq => hnn q (List.mem_cons_of_mem _ hq))
    simp only [relaxAdj]
    cases ht : eltb (eadd (dist u) w) (dist v) with
    | true =>
      rw [if_pos rfl]
      by_cases hxv : x = v
      · exfalso
        rw [← hxv] at ht
        exact eltb_asymm (ele_trans hle (ele_self_eadd hw)) ht
      · have huv : ¬ u = v := by
          intro huv
          rw [← huv] at ht
          exact eltb_asymm (ele_self_eadd hw) ht
        have hle' : ele ((updD dist v (eadd (dist u) w), updP prev v (some u)).1 x)
            ((updD dist v (eadd (dist u) w), updP prev v (some u)).1 u) := by
          show ele (updD dist v (eadd (dist u) w) x) (updD dist v (eadd (dist u) w) u)
          rw [updD_ne _ _ _ hxv, updD_ne _ _ _ huv]
          exact hle
        rw [ihr _ x hle']
        show updD dist v (eadd (dist u) w) x = dist x
        exact updD_ne _ _ _ hxv
    | false =>
      rw [if_neg (by simp)]
      exact ihr _ x hle

/-- After the inner loop, every processed pair satisfies the frontier
bound relative to the entry distance of the relaxing node. -/
theorem relaxAdj_bound {u : String} :
    ∀ (ws : List (String × Int)) (dp : (String → Option Int) × (String → Option String)),
      ∀ p ∈ ws, ele ((relaxAdj u dp ws).1 p.1) (eadd (dp.1 u) p.2) := by
  intro ws
  induction ws with
  | nil => intro dp p hp; cases hp
  | cons q rest ih =>
    intro dp p hp
    obtain ⟨v, w⟩ := q
    obtain ⟨dist, prev⟩ := dp
    simp only [relaxAdj]
    rcases List.mem_cons.mp hp with rfl | hp'
    · cases ht : eltb (eadd (dist u) w) (dist v) with
      | true =>
        rw [if_pos rfl]
        have h1 : ele ((relaxAdj u (updD dist v (eadd (dist u) w), updP prev v (some u)) rest).1 v)
            (updD dist v (eadd (dist u) w) v) := relaxAdj_dist_ele rest _ v
        rw [updD_same] at h1
        exact h1
      | false =>
        rw [if_neg (by simp)]
        exact ele_trans (relaxAdj_dist_ele rest _ v) (eltb_false_iff.mp ht)
    · cases ht : eltb (eadd (dist u) w) (dist v) with
      | true =>
        rw [if_pos rfl]
        have h1 := ih (updD dist v (eadd (dist u) w), updP prev v (some u)) p hp'
        exact ele_trans h1 (eadd_mono _ (upd_dist_ele ht u))
      | false =>
        rw [if_neg (by simp)]
        exact ih (dist, prev) p hp'

/-! ### Per-pass lemmas for `bellman_ford` -/

theorem EChain.append_split {g : Graph} {u v : String} {l1 l2 : List Edge}
    (h : EChain g u v (l1 ++ l2)) : ∃ m, EChain g u m l1 ∧ EChain g m v l2 := by
  induction l1 generalizing u with
  | nil => exact ⟨u, EChain.nil u, h⟩
  | cons e rest ih =>
    cases h with
    | cons _ he hch =>
      obtain ⟨m, h1, h2⟩ := ih hch
      exact ⟨m, EChain.cons e he h1, h2⟩

theorem EChain.singleton_inv {g : Graph} {m v : String} {e : Edge}
    (h : EChain g m v [e]) : e ∈ g.edges ∧ m = e.src ∧ v = e.dst := by
  cases h with
  | cons _ he htail => exact ⟨he, rfl, htail.nil_eq.symm⟩

theorem bfPass_relaxInv {g : Graph} {s startId : String} :
    ∀ (es : List Edge) (sb : BState × Bool), (∀ e ∈ es, e ∈ g.edges) →
      RelaxInv g s sb.1.dist sb.1.prev →
      RelaxInv g s (bfPass startId es sb).1.dist (bfPass startId es sb).1.prev := by
  intro es
  induction es with
  | nil => intro sb _ inv; exact inv
  | cons e rest ih =>
    intro sb hes inv
    obtain ⟨st, b⟩ := sb
    have hrest : ∀ f ∈ rest, f ∈ g.edges := fun f hf => hes f (List.mem_cons_of_mem _ hf)
    have hee : e ∈ g.edges := hes e (List.mem_cons_self _ _)
    simp only [bfPass]
    by_cases hg1 : st.dist e.src ≠ none
    · rw [if_pos hg1]
      cases ht : eltb (eadd (st.dist e.src) e.weight) (st.dist e.dst) with
      | true =>
        rw [if_pos rfl]
        exact ih _ hrest (inv.preserve ⟨⟨e, hee, rfl, rfl, rfl⟩, ht⟩)
      | false =>
        rw [if_neg (by simp)]
        exact ih _ hrest inv
    · rw [if_neg hg1]
      exact ih _ hrest inv

theorem bfPass_nonnegInv {g : Graph} {startId : String}
    (hnn : ∀ e ∈ g.edges, 0 ≤ e.weight) :
    ∀ (es : List Edge) (sb : BState × Bool), (∀ e ∈ es, e ∈ g.edges) →
      NonnegInv sb.1.dist sb.1.prev →
      NonnegInv (bfPass startId es sb).1.dist (bfPass startId es sb).1.prev := by
  intro es
  induction es with
  | nil => intro sb _ inv; exact inv
  | cons e rest ih =>
    intro sb hes inv
    obtain ⟨st, b⟩ := sb
    have hrest : ∀ f ∈ rest, f ∈ g.edges := fun f hf => hes f (List.mem_cons_of_mem _ hf)
    have hee : e ∈ g.edges := hes e (List.mem_cons_self _ _)
    simp only [bfPass]
    by_cases hg1 : st.dist e.src ≠ none
    · rw [if_pos hg1]
      cases ht : eltb (eadd (st.dist e.src) e.weight) (st.dist e.dst) with
      | true =>
        rw [if_pos rfl]
        exact ih _ hrest (inv.preserveNN (hnn e hee) ⟨⟨e, hee, rfl, rfl, rfl⟩, ht⟩)
      | false =>
        rw [if_neg (by simp)]
        exact ih _ hrest inv
    · rw [if_neg hg1]
      exact ih _ hrest inv

theorem bfPass_dist_ele {startId : String} :
    ∀ (es : List Edge) (sb : BState × Bool) (x : String),
      ele ((bfPass startId es sb).1.dist x) (sb.1.dist x) := by
  intro es
  induction es with
  | nil => intro sb x; exact ele_refl _
  | cons e rest ih =>
    intro sb x
    obtain ⟨st, b⟩ := sb
    simp only [bfPass]
    by_cases hg1 : st.dist e.src ≠ none
    · rw [if_pos hg1]
      cases ht : eltb (eadd (st.dist e.src) e.weight) (st.dist e.dst) with
      | true =>
        rw [if_pos rfl]
        exact ele_trans (ih _ x) (upd_dist_ele ht x)
      | false =>
        rw [if_neg (by simp)]
        exact ih _ x
    · rw [if_neg hg1]
      exact ih _ x

/-- After one pass every edge satisfies the one-step bound relative to the
distances at the start of the pass. -/
theorem bfPass_bound {startId : String} :
    ∀ (es : List Edge) (sb : BState × Bool),
      ∀ e ∈ es, ele ((bfPass startId es sb).1.dist e.dst) (eadd (sb.1.dist e.src) e.weight) := by
  intro es
  induction es with
  | nil => intro sb e he; cases he
  | cons f rest ih =>
    intro sb e he
    obtain ⟨st, b⟩ := sb
    simp only [bfPass]
    by_cases hg1 : st.dist f.src ≠ none
    · rw [if_pos hg1]
      cases ht : eltb (eadd (st.dist f.src) f.weight) (st.dist f.dst) with
      | true =>
        rw [if_pos rfl]
        rcases List.mem_cons.mp he with rfl | he'
        · refine ele_trans (bfPass_dist_ele rest _ e.dst) ?_
          show ele (updD st.dist e.dst (eadd (st.dist e.src) e.weight) e.dst)
            (eadd (st.dist e.src) e.weight)
          rw [updD_same]
          exact ele_refl _
        · refine ele_trans (ih _ e he') (eadd_mono _ ?_)
          exact upd_dist_ele ht e.src
      | false =>
        rw [if_neg (by simp)]
        rcases List.mem_cons.mp he with rfl | he'
        · exact ele_trans (bfPass_dist_ele rest _ e.dst) (eltb_false_iff.mp ht)
        · exact ih _ e he'
    · rw [if_neg hg1]
      rcases List.mem_cons.mp he with rfl | he'
      · have hsrc : st.dist e.src = none := by
          by_contra hc
          exact hg1 hc
        rw [hsrc]
        exact ele_none_right _
      · exact ih _ e he'

/-- Once the `updated` flag is set it stays set. -/
theorem bfPass_true_stays {startId : String} :
    ∀ (es : List Edge) (st : BState), (bfPass startId es (st, true)).2 = true := by
  intro es
  induction es with
  | nil => intro st; rfl
  | cons e rest ih =>
    intro st
    simp only [bfPass]
    by_cases hg1 : st.dist e.src ≠ none
    · rw [if_pos hg1]
      cases ht : eltb (eadd (st.dist e.src) e.weight) (st.dist e.dst) with
      | true => rw [if_pos rfl]; exact ih _
      | false => rw [if_neg (by simp)]; exact ih _
    · rw [if_neg hg1]
      exact ih _

/-- A pass that ends with `updated = False` changed nothing and certifies
that no edge can improve the distances. -/
theorem bfPass_not_updated {startId : String} :
    ∀ (es : List Edge) (st : BState), (bfPass startId es (st, false)).2 = false →
      (bfPass startId es (st, false)).1 = st ∧
      ∀ e ∈ es, st.dist e.src ≠ none →
        eltb (eadd (st.dist e.src) e.weight) (st.dist e.dst) = false := by
  intro es
  induction es with
  | nil =>
    intro st _
    exact ⟨rfl, by simp⟩
  | cons e rest ih =>
    intro st hupd
    simp only [bfPass] at hupd ⊢
    by_cases hg1 : st.dist e.src ≠ none
    · rw [if_pos hg1] at hupd ⊢
      cases ht : eltb (eadd (st.dist e.src) e.weight) (st.dist e.dst) with
      | true =>
        exfalso
        rw [if_pos ht] at hupd
        rw [bfPass_true_stays] at hupd
        cases hupd
      | false =>
        rw [if_neg (by simp [ht])] at hupd
        rw [if_neg (by simp)]
        obtain ⟨h1, h2⟩ := ih st hupd
        refine ⟨h1, ?_⟩
        intro f hf hfs
        rcases List.mem_cons.mp hf with rfl | hf'
        · exact ht
        · exact h2 f hf' hfs
    · rw [if_neg hg1] at hupd ⊢
      obtain ⟨h1, h2⟩ := ih st hupd
      refine ⟨h1, ?_⟩
      intro f hf hfs
      rcases List.mem_cons.mp hf with rfl | hf'
      · exact absurd hfs hg1
      · exact h2 f hf' hfs

/-! ### The pass loop of `bellman_ford` -/

theorem bfLoop_relaxInv {g : Graph} {s startId : String}
    (hes : ∀ e ∈ g.edges, e ∈ g.edges) :
    ∀ (fuel : Nat) (st : BState), RelaxInv g s st.dist st.prev →
      RelaxInv g s (bfLoop startId g.edges fuel st).dist
        (bfLoop startId g.edges fuel st).prev := by
  intro fuel
  induction fuel with
  | zero => intro st inv; exact inv
  | succ fuel ih =>
    intro st inv
    simp only [bfLoop]
    rcases hsp : bfPass startId g.edges (st, false) with ⟨st1, b⟩
    have hinv1 : RelaxInv g s st1.dist st1.prev := by
      have := @bfPass_relaxInv g s startId g.edges (st, false) hes inv
      rwa [hsp] at this
    cases b with
    | true => simpa using ih st1 hinv1
    | false => simpa using hinv1

theorem bfLoop_nonnegInv {g : Graph} {startId : String}
    (hnn : ∀ e ∈ g.edges, 0 ≤ e.weight) :
    ∀ (fuel : Nat) (st : BState), NonnegInv st.dist st.prev →
      NonnegInv (bfLoop startId g.edges fuel st).dist
        (bfLoop startId g.edges fuel st).prev := by
  intro fuel
  induction fuel with
  | zero => intro st inv; exact inv
  | succ fuel ih =>
    intro st inv
    simp only [bfLoop]
    rcases hsp : bfPass startId g.edges (st, false) with ⟨st1, b⟩
    have hinv1 : NonnegInv st1.dist st1.prev := by
      have := @bfPass_nonnegInv g startId hnn g.edges (st, false)
        (fun e he => he) inv
      rwa [hsp] at this
    cases b with
    | true => simpa using ih st1 hinv1
    | false => simpa using hinv1

/-- Distances bounded by the cheapest walk of at most `k` edges. -/
def UpTo (g : Graph) (s : String) (dist : String → Option Int) (k : Nat) : Prop :=
  ∀ v es, EChain g s v es → (∀ e ∈ es, e ∈ g.edges) → es.length ≤ k →
    ele (dist v) (some (chainWeight es))

/-- The distances found by `bellman_ford` are a fixed point of
relaxation: no edge can improve them. -/
def FixptOn (dist : String → Option Int) (edges : List Edge) : Prop :=
  ∀ e ∈ edges, dist e.src ≠ none →
    eltb (eadd (dist e.src) e.weight) (dist e.dst) = false

theorem upTo_init (g : Graph) (s : String) :
    UpTo g s (bfInit s).dist 0 := by
  intro v es hch _ hlen
  have hes : es = [] := List.length_eq_zero.mp (Nat.le_zero.mp hlen)
  subst hes
  have hv := hch.nil_eq
  subst hv
  show ele (updD (fun _ => none) s (some 0) s) (some (chainWeight []))
  rw [updD_same, chainWeight_nil]
  simp [ele]

theorem bfPass_upTo {g : Graph} {s startId : String} {st : BState} {b : Bool} {k : Nat}
    (hu : UpTo g s st.dist k) :
    UpTo g s (bfPass startId g.edges (st, b)).1.dist (k + 1) := by
  intro v es hch hsub hlen
  rcases List.eq_nil_or_concat' es with rfl | ⟨l', e, rfl⟩
  · have hv := hch.nil_eq
    subst hv
    refine ele_trans (bfPass_dist_ele g.edges (st, b) s) ?_
    exact hu s [] (EChain.nil s) (by simp) (Nat.zero_le k)
  · obtain ⟨m, h1, h2⟩ := hch.append_split
    obtain ⟨hee, hm, hv⟩ := h2.singleton_inv
    have hl' : l'.length ≤ k := by
      have := hlen
      simp only [List.length_append, List.length_cons, List.length_nil] at this
      omega
    have hdm : ele (st.dist m) (some (chainWeight l')) :=
      hu m l' h1 (fun f hf => hsub f (List.mem_append_left _ hf)) hl'
    have hb := @bfPass_bound startId g.edges (st, b) e hee
    rw [← hm] at hb
    refine ele_trans ?_ (ele_trans hb ?_)
    · rw [hv]
      exact ele_refl _
    · refine ele_trans (eadd_mono e.weight hdm) ?_
      show ele (some (chainWeight l' + e.weight)) (some (chainWeight (l' ++ [e])))
      rw [chainWeight_append, chainWeight_cons, chainWeight_nil]
      simp [ele]

/-- After the pass loop the distances are either already a fixed point
(early convergence) or bounded by every walk of at most `k + fuel`
edges. -/
theorem bfLoop_upTo {g : Graph} {s startId : String} :
    ∀ (fuel k : Nat) (st : BState), UpTo g s st.dist k →
      FixptOn (bfLoop startId g.edges fuel st).dist g.edges ∨
      UpTo g s (bfLoop startId g.edges fuel st).dist (k + fuel) := by
  intro fuel
  induction fuel with
  | zero => intro k st hu; right; exact hu
  | succ fuel ih =>
    intro k st hu
    simp only [bfLoop]
    rcases hsp : bfPass startId g.edges (st, false) with ⟨st1, b⟩
    have hu1 : UpTo g s st1.dist (k + 1) := by
      have := @bfPass_upTo g s startId st false k hu
      rwa [hsp] at this
    cases b with
    | true =>
      simp only [if_pos rfl]
      rcases ih (k + 1) st1 hu1 with hfix | hup
      · left; exact hfix
      · right
        have : k + 1 + fuel = k + (fuel + 1) := by omega
        rwa [this] at hup
    | false =>
      simp only [Bool.false_eq_true, if_false]
      have hnu := @bfPass_not_updated startId g.edges st (by rw [hsp])
      obtain ⟨h1, h2⟩ := hnu
      rw [hsp] at h1
      left
      intro e he
      rw [show st1 = st from h1]
      exact h2 e he

theorem negScan_false_iff {dist : String → Option Int} {edges : List Edge} :
    negScan dist edges = false ↔ FixptOn dist edges := by
  rw [negScan, List.any_eq_false]
  constructor
  · intro h e he hne
    have := h e he
    rw [if_pos hne] at this
    exact Bool.eq_false_iff.mpr this
  · intro h e he
    by_cases hne : dist e.src ≠ none
    · rw [if_pos hne, h e he hne]
      simp
    · rw [if_neg hne]
      simp

/-- At a fixed point, distances are bounded along every walk. -/
theorem fixpt_opt {g : Graph} {dist : String → Option Int}
    (hfix : FixptOn dist g.edges) :
    ∀ {u v : String} {es : List Edge}, EChain g u v es → ∀ du, dist u = some du →
      ele (dist v) (some (du + chainWeight es)) := by
  intro u v es hch
  induction hch with
  | nil =>
    intro du hdu
    rw [chainWeight_nil, hdu]
    simp [ele]
  | cons e he hch ih =>
    intro du hdu
    have hf := hfix e he (by rw [hdu]; exact Option.some_ne_none _)
    have h1 : ele (dist e.dst) (eadd (dist e.src) e.weight) := eltb_false_iff.mp hf
    rw [hdu] at h1
    have h1' : ele (dist e.dst) (some (du + e.weight)) := h1
    obtain ⟨dd, hdd, hddle⟩ := ele_some_iff.mp h1'
    have h2 := ih dd hdd
    refine ele_trans h2 ?_
    rw [chainWeight_cons]
    simp only [ele]
    omega

/-! ### Path reconstruction -/

theorem reconPath_keyErr {nodes : List String} {prev : String → Option String}
    {fuel : Nat} {e : String} (he : e ∉ nodes) (acc : List String) :
    reconPath nodes prev (fuel + 1) e acc = .keyErr := by
  simp only [reconPath]
  rw [if_neg he]

theorem reconPath_terminal {nodes : List String} {prev : String → Option String}
    {fuel : Nat} {e : String} (he : e ∈ nodes) (hp : prev e = none) (acc : List String) :
    reconPath nodes prev (fuel + 1) e acc = .ok (e :: acc) := by
  simp only [reconPath]
  rw [if_pos he, hp]

/-- Successful reconstruction: if the predecessor chain from `current`
reaches a node without predecessor within the fuel, and stays inside the
node set, the loop returns the chain, reversed, in front of `acc`. -/
theorem reconPath_ok {nodes : List String} {prev : String → Option String} :
    ∀ (j : Nat) (current : String) (acc : List String) (fuel : Nat) (x : String),
      prevIter prev j current = some x → prev x = none →
      (∀ i y, i ≤ j → prevIter prev i current = some y → y ∈ nodes) →
      j < fuel →
      ∃ p, reconPath nodes prev fuel current acc = .ok (p ++ acc) ∧
        p.head? = some x ∧ p.getLast? = some current ∧ p ≠ [] := by
  intro j
  induction j with
  | zero =>
    intro current acc fuel x hit hterm hmem hfuel
    injection hit with hit
    subst hit
    obtain ⟨f, rfl⟩ := Nat.exists_eq_succ_of_ne_zero (Nat.pos_iff_ne_zero.mp hfuel)
    rw [reconPath_terminal (hmem 0 current (Nat.zero_le 0) rfl) hterm acc]
    exact ⟨[current], rfl, rfl, rfl, by simp⟩
  | succ j ih =>
    intro current acc fuel x hit hterm hmem hfuel
    simp only [prevIter] at hit
    cases hp : prev current with
    | none => rw [hp] at hit; cases hit
    | some y =>
      rw [hp] at hit
      obtain ⟨f, rfl⟩ := Nat.exists_eq_succ_of_ne_zero (show fuel ≠ 0 by omega)
      have hcm : current ∈ nodes := hmem 0 current (Nat.zero_le _) rfl
      have hmem' : ∀ i z, i ≤ j → prevIter prev i y = some z → z ∈ nodes := by
        intro i z hi hiz
        refine hmem (i + 1) z (by omega) ?_
        simp only [prevIter, hp]
        exact hiz
      obtain ⟨p', hrec, hh, hl, hne⟩ :=
        ih y (current :: acc) f x hit hterm hmem' (by omega)
      refine ⟨p' ++ [current], ?_, ?_, ?_, by simp⟩
      · simp only [reconPath]
        rw [if_pos hcm, hp]
        show reconPath nodes prev f y (current :: acc) =
          ReconResult.ok ((p' ++ [current]) ++ acc)
        rw [hrec]
        simp
      · cases p' with
        | nil => exact absurd rfl hne
        | cons a t => simpa using hh
      · rw [List.getLast?_append_cons]
        rfl

/-- Pigeonhole: an acyclic predecessor map whose values stay in the node
set reaches a node without predecessor within `|nodes|` steps. -/
theorem chain_term {prev : String → Option String} {nodes : List String}
    (hnc : ∀ v k, prevIter prev (k + 1) v ≠ some v)
    (hmem : ∀ v u, prev v = some u → u ∈ nodes)
    {e : String} (he : e ∈ nodes) :
    ∃ j x, j < nodes.length + 1 ∧ prevIter prev j e = some x ∧ prev x = none := by
  by_contra hcon
  push_neg at hcon
  have hA : ∀ j, j ≤ nodes.length + 1 → ∃ x, prevIter prev j e = some x ∧ x ∈ nodes := by
    intro j
    induction j with
    | zero => intro _; exact ⟨e, rfl, he⟩
    | succ j ih =>
      intro hj
      obtain ⟨x, hx, hxm⟩ := ih (by omega)
      have hpx := hcon j x (by omega) hx
      cases hpy : prev x with
      | none => exact absurd hpy hpx
      | some y =>
        refine ⟨y, ?_, hmem x y hpy⟩
        have hadd := prevIter_add prev j 1 e
        rw [hx] at hadd
        rw [hadd]
        simp [prevIter, hpy]
  have hinj2 : ∀ (i j : Nat), i < j → j ≤ nodes.length + 1 →
      (prevIter prev i e).getD e ≠ (prevIter prev j e).getD e := by
    intro i j hij hj hval
    obtain ⟨xi, hxi, _⟩ := hA i (by omega)
    obtain ⟨xj, hxj, _⟩ := hA j (by omega)
    rw [hxi, hxj] at hval
    simp only [Option.getD_some] at hval
    subst hval
    have hadd := prevIter_add prev i (j - i) e
    rw [show i + (j - i) = j from by omega, hxi] at hadd
    rw [hxj] at hadd
    obtain ⟨k, hk⟩ : ∃ k, j - i = k + 1 := ⟨j - i - 1, by omega⟩
    rw [hk] at hadd
    exact hnc xi k hadd.symm
  have hnd : ((List.range (nodes.length + 2)).map
      (fun j => (prevIter prev j e).getD e)).Nodup := by
    rw [List.Nodup, List.pairwise_iff_getElem]
    intro i j hi hj hij
    simp only [List.getElem_map, List.getElem_range]
    have hj' : j < nodes.length + 2 := by simpa using hj
    exact hinj2 i j hij (by omega)
  have hsub : ((List.range (nodes.length + 2)).map
      (fun j => (prevIter prev j e).getD e)) ⊆ nodes := by
    intro z hz
    obtain ⟨j, hj, rfl⟩ := List.mem_map.mp hz
    rw [List.mem_range] at hj
    obtain ⟨x, hx, hxm⟩ := hA j (by omega)
    rw [hx]
    exact hxm
  have hle := (List.subperm_of_subset hnd hsub).length_le
  simp only [List.length_map, List.length_range] at hle
  omega

/-! ### The main loop of `dijkstra` -/

theorem dijkstraLoop_empty {adj : String → List (String × Int)} {startId endId : String}
    {fuel : Nat} {st : DState} (hsel : selectMin st.dist st.unvisited = none) :
    dijkstraLoop adj startId endId (fuel + 1) st = st := by
  simp only [dijkstraLoop]
  rw [hsel]

theorem dijkstraLoop_inf {adj : String → List (String × Int)} {startId endId : String}
    {fuel : Nat} {st : DState} {c : String}
    (hsel : selectMin st.dist st.unvisited = some c) (hdc : st.dist c = none) :
    dijkstraLoop adj startId endId (fuel + 1) st = st := by
  simp only [dijkstraLoop]
  rw [hsel]
  simp [hdc]

theorem dijkstraLoop_atEnd {adj : String → List (String × Int)} {startId endId : String}
    {fuel : Nat} {st : DState} {c : String}
    (hsel : selectMin st.dist st.unvisited = some c) (hdc : ¬ st.dist c = none)
    (hce : c = endId) :
    dijkstraLoop adj startId endId (fuel + 1) st =
      { st with unvisited := st.unvisited.erase c
                visitOrder :=
                  if c ≠ startId then st.visitOrder ++ [c] else st.visitOrder } := by
  subst hce
  simp only [dijkstraLoop]
  rw [hsel]
  simp [hdc]

theorem dijkstraLoop_step {adj : String → List (String × Int)} {startId endId : String}
    {fuel : Nat} {st : DState} {c : String}
    (hsel : selectMin st.dist st.unvisited = some c) (hdc : ¬ st.dist c = none)
    (hce : ¬ c = endId) :
    dijkstraLoop adj startId endId (fuel + 1) st =
      dijkstraLoop adj startId endId fuel
        { dist := (relaxAdj c (st.dist, st.prev) (adj c)).1
          prev := (relaxAdj c (st.dist, st.prev) (adj c)).2
          unvisited := st.unvisited.erase c
          visitOrder := if c ≠ startId then st.visitOrder ++ [c] else st.visitOrder } := by
  simp only [dijkstraLoop]
  rw [hsel]
  simp [hdc, hce]

theorem pairs_nonneg {g : Graph} (hnn : ∀ e ∈ g.edges, 0 ≤ e.weight) (u : String) :
    ∀ p ∈ adjOf g u, 0 ≤ p.2 := by
  intro p hp
  obtain ⟨e, he, _, _, hw⟩ := pairsFrom_adjOf g u p hp
  have hw' : e.weight = p.2 := hw
  rw [← hw']
  exact hnn e he

theorem dijkstraLoop_relaxInv {g : Graph} {s0 startId endId : String} :
    ∀ (fuel : Nat) (st : DState), RelaxInv g s0 st.dist st.prev →
      RelaxInv g s0 (dijkstraLoop (adjOf g) startId endId fuel st).dist
        (dijkstraLoop (adjOf g) startId endId fuel st).prev := by
  intro fuel
  induction fuel with
  | zero => intro st inv; exact inv
  | succ fuel ih =>
    intro st inv
    cases hsel : selectMin st.dist st.unvisited with
    | none => rw [dijkstraLoop_empty hsel]; exact inv
    | some c =>
      by_cases hdc : st.dist c = none
      · rw [dijkstraLoop_inf hsel hdc]
        exact inv
      · by_cases hce : c = endId
        · rw [dijkstraLoop_atEnd hsel hdc hce]
          exact inv
        · rw [dijkstraLoop_step hsel hdc hce]
          exact ih _ (relaxAdj_relaxInv _ _ (pairsFrom_adjOf g c) inv)

theorem dijkstraLoop_nonnegInv {g : Graph} {startId endId : String}
    (hnn : ∀ e ∈ g.edges, 0 ≤ e.weight) :
    ∀ (fuel : Nat) (st : DState), NonnegInv st.dist st.prev →
      NonnegInv (dijkstraLoop (adjOf g) startId endId fuel st).dist
        (dijkstraLoop (adjOf g) startId endId fuel st).prev := by
  intro fuel
  induction fuel with
  | zero => intro st inv; exact inv
  | succ fuel ih =>
    intro st inv
    cases hsel : selectMin st.dist st.unvisited with
    | none => rw [dijkstraLoop_empty hsel]; exact inv
    | some c =>
      by_cases hdc : st.dist c = none
      · rw [dijkstraLoop_inf hsel hdc]
        exact inv
      · by_cases hce : c = endId
        · rw [dijkstraLoop_atEnd hsel hdc hce]
          exact inv
        · rw [dijkstraLoop_step hsel hdc hce]
          exact ih _ (relaxAdj_nonnegInv hnn _ _ (pairsFrom_adjOf g c) inv)

/-- A continuing iteration removes exactly one node: the selected node
is a member, and erasing a member shortens the list by one. -/
theorem selectMin_erase_length {dist : String → Option Int} {l : List String} {c : String}
    (h : selectMin dist l = some c) : (l.erase c).length + 1 = l.length := by
  have hc := selectMin_mem h
  rw [List.length_erase_of_mem hc]
  have hpos : 0 < l.length := List.length_pos.mpr (List.ne_nil_of_mem hc)
  omega

/-- Any fuel of at least `|unvisited|` gives the same result: the loop
terminates within `|unvisited|` iterations. -/
theorem dijkstraLoop_fuel {adj : String → List (String × Int)} {startId endId : String} :
    ∀ (n : Nat) (st : DState), st.unvisited.length ≤ n →
      ∀ m, n ≤ m →
        dijkstraLoop adj startId endId m st = dijkstraLoop adj startId endId n st := by
  intro n
  induction n with
  | zero =>
    intro st hlen m _
    have hnil : st.unvisited = [] := List.length_eq_zero.mp (Nat.le_zero.mp hlen)
    cases m with
    | zero => rfl
    | succ m =>
      rw [dijkstraLoop_empty (by rw [hnil]; rfl)]
      rfl
  | succ n ih =>
    intro st hlen m hm
    obtain ⟨m', rfl⟩ : ∃ m', m = m' + 1 := ⟨m - 1, by omega⟩
    cases hsel : selectMin st.dist st.unvisited with
    | none =>
      rw [dijkstraLoop_empty hsel, dijkstraLoop_empty hsel]
    | some c =>
      by_cases hdc : st.dist c = none
      · rw [dijkstraLoop_inf hsel hdc, dijkstraLoop_inf hsel hdc]
      · by_cases hce : c = endId
        · rw [dijkstraLoop_atEnd hsel hdc hce, dijkstraLoop_atEnd hsel hdc hce]
        · rw [dijkstraLoop_step hsel hdc hce, dijkstraLoop_step hsel hdc hce]
          have hlen' : (st.unvisited.erase c).length ≤ n := by
            have := selectMin_erase_length hsel
            omega
          exact ih _ hlen' m' (by omega)

/-! ### The visit order -/

/-- Invariants of `dijkstra`'s `visit_order` list. -/
structure VisitInv (startId : String) (st : DState) : Prop where
  nodup : st.visitOrder.Nodup
  nostart : startId ∉ st.visitOrder
  fresh : ∀ x ∈ st.visitOrder, x ∉ st.unvisited
  und : st.unvisited.Nodup

theorem visitInv_step {startId : String} {st : DState} (inv : VisitInv startId st)
    {c : String} (hc : c ∈ st.unvisited)
    (d' : String → Option Int) (p' : String → Option String) :
    VisitInv startId
      { dist := d', prev := p', unvisited := st.unvisited.erase c
        visitOrder := if c ≠ startId then st.visitOrder ++ [c] else st.visitOrder } := by
  have hcvo : c ∉ st.visitOrder := fun hmem => inv.fresh c hmem hc
  constructor
  · show (if c ≠ startId then st.visitOrder ++ [c] else st.visitOrder).Nodup
    by_cases hcs : c ≠ startId
    · rw [if_pos hcs]
      simp only [List.nodup_append, List.nodup_cons, List.not_mem_nil, not_false_iff,
        List.nodup_nil, and_true, true_and]
      constructor
      · exact inv.nodup
      · intro a ha
        simp only [List.mem_singleton]
        intro hac
        rw [hac] at ha
        exact hcvo ha
    · rw [if_neg hcs]
      exact inv.nodup
  · show startId ∉ (if c ≠ startId then st.visitOrder ++ [c] else st.visitOrder)
    by_cases hcs : c ≠ startId
    · rw [if_pos hcs]
      intro hmem
      rcases List.mem_append.mp hmem with h | h
      · exact inv.nostart h
      · rw [List.mem_singleton] at h
        exact hcs h.symm
    · rw [if_neg hcs]
      exact inv.nostart
  · intro x hx
    show x ∉ st.unvisited.erase c
    have hx' : x ∈ st.visitOrder ∨ x = c := by
      by_cases hcs : c ≠ startId
      · rw [if_pos hcs] at hx
        rcases List.mem_append.mp hx with h | h
        · exact Or.inl h
        · exact Or.inr (List.mem_singleton.mp h)
      · rw [if_neg hcs] at hx
        exact Or.inl hx
    rcases hx' with h | rfl
    · exact fun hmem => inv.fresh x h (List.mem_of_mem_erase hmem)
    · intro hmem
      exact ((inv.und.mem_erase_iff).mp hmem).1 rfl
  · exact inv.und.erase c

theorem dijkstraLoop_visitInv {adj : String → List (String × Int)} {startId endId : String} :
    ∀ (fuel : Nat) (st : DState), VisitInv startId st →
      VisitInv startId (dijkstraLoop adj startId endId fuel st) := by
  intro fuel
  induction fuel with
  | zero => intro st inv; exact inv
  | succ fuel ih =>
    intro st inv
    cases hsel : selectMin st.dist st.unvisited with
    | none => rw [dijkstraLoop_empty hsel]; exact inv
    | some c =>
      by_cases hdc : st.dist c = none
      · rw [dijkstraLoop_inf hsel hdc]
        exact inv
      · by_cases hce : c = endId
        · rw [dijkstraLoop_atEnd hsel hdc hce]
          exact visitInv_step inv (selectMin_mem hsel) st.dist st.prev
        · rw [dijkstraLoop_step hsel hdc hce]
          exact ih _ (visitInv_step inv (selectMin_mem hsel) _ _)

theorem bfPass_visit {startId : String} :
    ∀ (es : List Edge) (sb : BState × Bool),
      sb.1.visitOrder.Nodup ∧ startId ∉ sb.1.visitOrder →
      (bfPass startId es sb).1.visitOrder.Nodup ∧
        startId ∉ (bfPass startId es sb).1.visitOrder := by
  intro es
  induction es with
  | nil => intro sb h; exact h
  | cons e rest ih =>
    intro sb h
    obtain ⟨st, b⟩ := sb
    simp only [bfPass]
    by_cases hg1 : st.dist e.src ≠ none
    · rw [if_pos hg1]
      cases ht : eltb (eadd (st.dist e.src) e.weight) (st.dist e.dst) with
      | true =>
        rw [if_pos rfl]
        apply ih
        by_cases hvo : ¬ e.dst ∈ st.visitOrder ∧ e.dst ≠ startId
        · show (if ¬ e.dst ∈ st.visitOrder ∧ e.dst ≠ startId
              then st.visitOrder ++ [e.dst] else st.visitOrder).Nodup ∧
            startId ∉ (if ¬ e.dst ∈ st.visitOrder ∧ e.dst ≠ startId
              then st.visitOrder ++ [e.dst] else st.visitOrder)
          rw [if_pos hvo]
          constructor
          · simp only [List.nodup_append, List.nodup_cons, List.not_mem_nil, not_false_iff,
              List.nodup_nil, and_true, true_and]
            refine ⟨h.1, ?_⟩
            intro a ha
            simp only [List.mem_singleton]
            intro hac
            rw [hac] at ha
            exact hvo.1 ha
          · intro hmem
            rcases List.mem_append.mp hmem with hmem' | hmem'
            · exact h.2 hmem'
            · rw [List.mem_singleton] at hmem'
              exact hvo.2 hmem'.symm
        · show (if ¬ e.dst ∈ st.visitOrder ∧ e.dst ≠ startId
              then st.visitOrder ++ [e.dst] else st.visitOrder).Nodup ∧
            startId ∉ (if ¬ e.dst ∈ st.visitOrder ∧ e.dst ≠ startId
              then st.visitOrder ++ [e.dst] else st.visitOrder)
          rw [if_neg hvo]
          exact h
      | false =>
        rw [if_neg (by simp)]
        exact ih _ h
    · rw [if_neg hg1]
      exact ih _ h

theorem bfLoop_visit {startId : String} {edges : List Edge} :
    ∀ (fuel : Nat) (st : BState),
      st.visitOrder.Nodup ∧ startId ∉ st.visitOrder →
      (bfLoop startId edges fuel st).visitOrder.Nodup ∧
        startId ∉ (bfLoop startId edges fuel st).visitOrder := by
  intro fuel
  induction fuel with
  | zero => intro st h; exact h
  | succ fuel ih =>
    intro st h
    simp only [bfLoop]
    rcases hsp : bfPass startId edges (st, false) with ⟨st1, b⟩
    have h1 : st1.visitOrder.Nodup ∧ startId ∉ st1.visitOrder := by
      have := @bfPass_visit startId edges (st, false) h
      rwa [hsp] at this
    cases b with
    | true => simpa using ih st1 h1
    | false => simpa using h1

/-! ### Optimality of `dijkstra` (non-negative weights) -/

theorem ele_some_mono {a b : Int} (h : a ≤ b) : ele (some a) (some b) := h

/-- The loop invariant of `dijkstra` under non-negative weights: settled
nodes (those no longer unvisited) carry minimal, walk-optimal distances,
and every edge out of a settled node has been relaxed. -/
structure DijkInv (g : Graph) (s0 : String) (st : DState) : Prop where
  sub : ∀ x ∈ st.unvisited, x ∈ g.nodes
  und : st.unvisited.Nodup
  base : RelaxInv g s0 st.dist st.prev
  nng : NonnegInv st.dist st.prev
  distS : st.dist s0 = some 0
  settledMin : ∀ u ∈ g.nodes, u ∉ st.unvisited → ∀ x ∈ st.unvisited,
    ele (st.dist u) (st.dist x)
  frontier : ∀ e ∈ g.edges, e.src ∉ st.unvisited →
    ele (st.dist e.dst) (eadd (st.dist e.src) e.weight)
  settledOpt : ∀ u ∈ g.nodes, u ∉ st.unvisited →
    ∀ es, EChain g s0 u es → ele (st.dist u) (some (chainWeight es))

/-- Every walk from the start is bounded below by the distance of its
endpoint (when settled) or by the distance of the node about to be
settled (when not). -/
theorem dijk_walkBound {g : Graph} {s0 : String} {st : DState}
    (hg : EdgesValid g) (hnn : ∀ e ∈ g.edges, 0 ≤ e.weight)
    (inv : DijkInv g s0 st) {c : String}
    (hc : selectMin st.dist st.unvisited = some c) :
    ∀ (es : List Edge) (v : String), EChain g s0 v es →
      (v ∉ st.unvisited → ele (st.dist v) (some (chainWeight es))) ∧
      (v ∈ st.unvisited → ele (st.dist c) (some (chainWeight es))) := by
  intro es
  induction es using List.reverseRecOn with
  | nil =>
    intro v hch
    have hv := hch.nil_eq
    subst hv
    rw [chainWeight_nil]
    constructor
    · intro _
      rw [inv.distS]
      exact ele_some_mono (le_refl 0)
    · intro hmem
      have h1 := selectMin_min hc s0 hmem
      rw [inv.distS] at h1
      exact h1
  | append_singleton l e ihl =>
    intro v hch
    obtain ⟨m, h1, h2⟩ := hch.append_split
    obtain ⟨hee, hm, hv⟩ := h2.singleton_inv
    subst hm
    subst hv
    have hwnn : 0 ≤ e.weight := hnn e hee
    obtain ⟨ihm1, ihm2⟩ := ihl e.src h1
    have hweq : chainWeight (l ++ [e]) = chainWeight l + e.weight := by
      rw [chainWeight_append, chainWeight_cons, chainWeight_nil]
      omega
    by_cases hmu : e.src ∉ st.unvisited
    · have hf := inv.frontier e hee hmu
      have hb : ele (st.dist e.dst) (some (chainWeight l + e.weight)) := by
        refine ele_trans hf (ele_trans (eadd_mono e.weight (ihm1 hmu)) ?_)
        show ele (some (chainWeight l + e.weight)) (some (chainWeight l + e.weight))
        exact ele_refl _
      constructor
      · intro _
        rw [hweq]
        exact hb
      · intro hvm
        rw [hweq]
        exact ele_trans (selectMin_min hc e.dst hvm) hb
    · have hmu' : e.src ∈ st.unvisited := not_not.mp hmu
      have hl2 : ele (st.dist c) (some (chainWeight l + e.weight)) :=
        ele_trans (ihm2 hmu') (ele_some_mono (by omega))
      constructor
      · intro hvs
        rw [hweq]
        refine ele_trans ?_ hl2
        exact inv.settledMin e.dst ((hg e hee).2) hvs c (selectMin_mem hc)
      · intro _
        rw [hweq]
        exact hl2

/-- With non-negative weights, relaxation from `u` either leaves a
distance unchanged or leaves it at least `dist u`. -/
theorem relaxAdj_lower (u : String) {ws : List (String × Int)}
    (hnn : ∀ p ∈ ws, 0 ≤ p.2) :
    ∀ (dp : (String → Option Int) × (String → Option String)) (x : String),
      (relaxAdj u dp ws).1 x = dp.1 x ∨ ele (dp.1 u) ((relaxAdj u dp ws).1 x) := by
  induction ws with
  | nil => intro dp x; left; rfl
  | cons p rest ih =>
    intro dp x
    obtain ⟨v, w⟩ := p
    obtain ⟨dist, prev⟩ := dp
    have hw : 0 ≤ w := hnn (v, w) (List.mem_cons_self _ _)
    have ihr := ih (fun q hq => hnn q (List.mem_cons_of_mem _ hq))
    simp only [relaxAdj]
    cases ht : eltb (eadd (dist u) w) (dist v) with
    | true =>
      rw [if_pos rfl]
      have huv : ¬ u = v := by
        intro huv
        rw [← huv] at ht
        exact eltb_asymm (ele_self_eadd hw) ht
      rcases ihr (updD dist v (eadd (dist u) w), updP prev v (some u)) x with heq | hlow
      · by_cases hxv : x = v
        · right
          rw [heq]
          show ele (dist u) (updD dist v (eadd (dist u) w) x)
          rw [hxv, updD_same]
          exact ele_self_eadd hw
        · left
          rw [heq]
          exact updD_ne _ _ _ hxv
      · right
        dsimp only at hlow
        rwa [updD_ne _ _ _ huv] at hlow
    | false =>
      rw [if_neg (by simp)]
      exact ihr _ x

/-- One settling iteration preserves the loop invariant. -/
theorem dijkInv_step {g : Graph} {s0 : String} {st : DState}
    (hg : EdgesValid g) (hnn : ∀ e ∈ g.edges, 0 ≤ e.weight)
    (inv : DijkInv g s0 st) {c : String}
    (hc : selectMin st.dist st.unvisited = some c) (hdc : ¬ st.dist c = none)
    (vo' : List String) :
    DijkInv g s0
      { dist := (relaxAdj c (st.dist, st.prev) (adjOf g c)).1
        prev := (relaxAdj c (st.dist, st.prev) (adjOf g c)).2
        unvisited := st.unvisited.erase c
        visitOrder := vo' } := by
  have hcm := selectMin_mem hc
  have hpnn := pairs_nonneg hnn c
  have hcmin := selectMin_min hc
  have hprotect : ∀ x, ele (st.dist x) (st.dist c) →
      (relaxAdj c (st.dist, st.prev) (adjOf g c)).1 x = st.dist x :=
    fun x hx => relaxAdj_protected hpnn (st.dist, st.prev) x hx
  have hsrc : (relaxAdj c (st.dist, st.prev) (adjOf g c)).1 c = st.dist c :=
    relaxAdj_src_const hpnn (st.dist, st.prev)
  have hlower := relaxAdj_lower c hpnn (st.dist, st.prev)
  have hmono := fun x => @relaxAdj_dist_ele c (adjOf g c) (st.dist, st.prev) x
  have hsettled_le : ∀ u, u ∈ g.nodes → u ∉ st.unvisited → ele (st.dist u) (st.dist c) :=
    fun u hun hu => inv.settledMin u hun hu c hcm
  have hmem_or : ∀ u, u ∉ st.unvisited.erase c → u ∉ st.unvisited ∨ u = c := by
    intro u hu
    by_cases h1 : u ∈ st.unvisited
    · right
      by_contra hne
      exact hu ((inv.und.mem_erase_iff).mpr ⟨hne, h1⟩)
    · left
      exact h1
  constructor
  · intro x hx
    exact inv.sub x (List.mem_of_mem_erase hx)
  · exact inv.und.erase c
  · exact relaxAdj_relaxInv _ _ (pairsFrom_adjOf g c) inv.base
  · exact relaxAdj_nonnegInv hnn _ _ (pairsFrom_adjOf g c) inv.nng
  · show (relaxAdj c (st.dist, st.prev) (adjOf g c)).1 s0 = some 0
    have hle : ele (st.dist s0) (st.dist c) := by
      rw [inv.distS]
      cases hdcv : st.dist c with
      | none => exact absurd hdcv hdc
      | some dc =>
        have := inv.nng.nn c dc hdcv
        exact ele_some_mono this
    rw [hprotect s0 hle]
    exact inv.distS
  · intro u hun hu x hx
    have hxu : x ∈ st.unvisited := List.mem_of_mem_erase hx
    rcases hmem_or u hu with huset | rfl
    · show ele ((relaxAdj c (st.dist, st.prev) (adjOf g c)).1 u)
        ((relaxAdj c (st.dist, st.prev) (adjOf g c)).1 x)
      rw [hprotect u (hsettled_le u hun huset)]
      rcases hlower x with heq | hlow
      · rw [heq]
        exact inv.settledMin u hun huset x hxu
      · exact ele_trans (hsettled_le u hun huset) hlow
    · show ele ((relaxAdj u (st.dist, st.prev) (adjOf g u)).1 u)
        ((relaxAdj u (st.dist, st.prev) (adjOf g u)).1 x)
      rw [hsrc]
      rcases hlower x with heq | hlow
      · rw [heq]
        exact hcmin x hxu
      · exact hlow
  · intro e he hesrc
    show ele ((relaxAdj c (st.dist, st.prev) (adjOf g c)).1 e.dst)
      (eadd ((relaxAdj c (st.dist, st.prev) (adjOf g c)).1 e.src) e.weight)
    rcases hmem_or e.src hesrc with huset | heqc
    · have hef := inv.frontier e he huset
      have hsrceq : (relaxAdj c (st.dist, st.prev) (adjOf g c)).1 e.src = st.dist e.src :=
        hprotect e.src (hsettled_le e.src (hg e he).1 huset)
      rw [hsrceq]
      exact ele_trans (hmono e.dst) hef
    · have hpair : (e.dst, e.weight) ∈ adjOf g c := adjOf_complete he heqc
      have hb := @relaxAdj_bound c (adjOf g c) (st.dist, st.prev) (e.dst, e.weight) hpair
      rw [heqc, hsrc]
      exact hb
  · intro u hun hu es hch
    show ele ((relaxAdj c (st.dist, st.prev) (adjOf g c)).1 u) (some (chainWeight es))
    rcases hmem_or u hu with huset | rfl
    · rw [hprotect u (hsettled_le u hun huset)]
      exact inv.settledOpt u hun huset es hch
    · rw [hsrc]
      exact (dijk_walkBound hg hnn inv hc es u hch).2 hcm

theorem dijkInv_init {g : Graph} (s0 : String) (hg : EdgesValid g)
    (hnd : g.nodes.Nodup) : DijkInv g s0 (dijkstraInit g s0) := by
  constructor
  · intro x hx
    exact hx
  · exact hnd
  · exact relaxInv_init g s0
  · exact nonnegInv_init s0
  · show updD (fun _ => none) s0 (some 0) s0 = some 0
    exact updD_same _ _ _
  · intro u hu hnu x hx
    exact absurd hu hnu
  · intro e he hsrc
    exact absurd (hg e he).1 hsrc
  · intro u hu hnu
    exact absurd hu hnu

/-- What survives of the invariant at loop exit, at the queried end
node. -/
structure DijkFinal (g : Graph) (s0 endId : String) (st : DState) : Prop where
  base : RelaxInv g s0 st.dist st.prev
  nng : NonnegInv st.dist st.prev
  opt : ∀ es, EChain g s0 endId es → ele (st.dist endId) (some (chainWeight es))

theorem dijkstraLoop_final {g : Graph} {s0 endId : String}
    (hg : EdgesValid g) (hnn : ∀ e ∈ g.edges, 0 ≤ e.weight) (hend : endId ∈ g.nodes) :
    ∀ (fuel : Nat) (st : DState), DijkInv g s0 st → st.unvisited.length ≤ fuel →
      DijkFinal g s0 endId (dijkstraLoop (adjOf g) s0 endId fuel st) := by
  intro fuel
  induction fuel with
  | zero =>
    intro st inv hlen
    have hnil : st.unvisited = [] := List.length_eq_zero.mp (Nat.le_zero.mp hlen)
    exact ⟨inv.base, inv.nng,
      fun es hch => inv.settledOpt endId hend (by rw [hnil]; simp) es hch⟩
  | succ fuel ih =>
    intro st inv hlen
    cases hsel : selectMin st.dist st.unvisited with
    | none =>
      rw [dijkstraLoop_empty hsel]
      have hnil : st.unvisited = [] := selectMin_eq_none.mp hsel
      exact ⟨inv.base, inv.nng,
        fun es hch => inv.settledOpt endId hend (by rw [hnil]; simp) es hch⟩
    | some c =>
      by_cases hdc : st.dist c = none
      · rw [dijkstraLoop_inf hsel hdc]
        refine ⟨inv.base, inv.nng, ?_⟩
        intro es hch
        by_cases hev : endId ∈ st.unvisited
        · have h2 := (dijk_walkBound hg hnn inv hsel es endId hch).2 hev
          rw [hdc] at h2
          exact h2.elim
        · exact inv.settledOpt endId hend hev es hch
      · by_cases hce : c = endId
        · subst hce
          rw [dijkstraLoop_atEnd hsel hdc rfl]
          refine ⟨inv.base, inv.nng, ?_⟩
          intro es hch
          exact (dijk_walkBound hg hnn inv hsel es c hch).2 (selectMin_mem hsel)
        · rw [dijkstraLoop_step hsel hdc hce]
          refine ih _ (dijkInv_step hg hnn inv hsel hdc _) ?_
          show (st.unvisited.erase c).length ≤ fuel
          have := selectMin_erase_length hsel
          omega

/-! ### Assembling the result records -/

/-- Finiteness propagates along predecessor chains. -/
theorem prevIter_finite {g : Graph} {s0 : String} {dist : String → Option Int}
    {prev : String → Option String} (base : RelaxInv g s0 dist prev) :
    ∀ (j : Nat) (v x : String), prevIter prev j v = some x → dist v ≠ none → dist x ≠ none := by
  intro j
  induction j with
  | zero =>
    intro v x h hv
    injection h with h
    subst h
    exact hv
  | succ j ih =>
    intro v x h hv
    simp only [prevIter] at h
    cases hp : prev v with
    | none => rw [hp] at h; cases h
    | some u =>
      rw [hp] at h
      exact ih u x h (base.finite v u hp).2

/-- Every node a predecessor chain passes is either its origin or a
stored predecessor value. -/
theorem prevIter_from {prev : String → Option String} :
    ∀ (i : Nat) (v y : String), prevIter prev i v = some y →
      y = v ∨ ∃ z, prev z = some y := by
  intro i
  induction i with
  | zero =>
    intro v y h
    injection h with h
    exact Or.inl h.symm
  | succ i ih =>
    intro v y h
    simp only [prevIter] at h
    cases hp : prev v with
    | none => rw [hp] at h; cases h
    | some u =>
      rw [hp] at h
      rcases ih u y h with rfl | hz
      · exact Or.inr ⟨v, hp⟩
      · exact Or.inr hz

/-- With the shared invariants, path reconstruction from an existing end
node succeeds within its fuel and produces a non-empty path ending at
the end node, whose head is the start node whenever the end node's
distance is finite. -/
theorem recon_spec {g : Graph} {s0 : String} {dist : String → Option Int}
    {prev : String → Option String} (hg : EdgesValid g)
    (base : RelaxInv g s0 dist prev) (nng : NonnegInv dist prev)
    {endId : String} (hend : endId ∈ g.nodes) :
    ∃ p, reconPath g.nodes prev (g.nodes.length + 1) endId [] = .ok p ∧
      p ≠ [] ∧ p.getLast? = some endId ∧
      (dist endId ≠ none → p.head? = some s0) := by
  have hmemP : ∀ v u, prev v = some u → u ∈ g.nodes := by
    intro v u hp
    obtain ⟨e, he, hsrc, _⟩ := base.edge v u hp
    rw [← hsrc]
    exact (hg e he).1
  obtain ⟨j, x, hj, hx, hxn⟩ := chain_term nng.noCyc hmemP hend
  have hmem : ∀ i y, i ≤ j → prevIter prev i endId = some y → y ∈ g.nodes := by
    intro i y _ hiy
    rcases prevIter_from i endId y hiy with rfl | ⟨z, hz⟩
    · exact hend
    · exact hmemP z y hz
  obtain ⟨p, hrec, hh, hl, hne⟩ := reconPath_ok j endId [] (g.nodes.length + 1) x hx hxn hmem hj
  rw [List.append_nil] at hrec
  refine ⟨p, hrec, hne, hl, ?_⟩
  intro hfin
  have hxfin : dist x ≠ none := prevIter_finite base j endId x hx hfin
  have hxs : x = s0 := base.start x hxfin hxn
  rw [hh, hxs]

/-- Structure of any successful reconstruction run: the returned list is
a non-empty predecessor chain from the end node back to a node without
predecessor. -/
theorem reconPath_ok_inv {nodes : List String} {prev : String → Option String} :
    ∀ (fuel : Nat) (current : String) (acc l : List String),
      reconPath nodes prev fuel current acc = .ok l →
      ∃ p, l = p ++ acc ∧ p ≠ [] ∧ p.getLast? = some current ∧
        ∃ x j, p.head? = some x ∧ prev x = none ∧ prevIter prev j current = some x := by
  intro fuel
  induction fuel with
  | zero => intro current acc l h; cases h
  | succ fuel ih =>
    intro current acc l h
    simp only [reconPath] at h
    by_cases hcm : current ∈ nodes
    · rw [if_pos hcm] at h
      cases hp : prev current with
      | none =>
        rw [hp] at h
        injection h with h
        exact ⟨[current], by simp [← h], by simp, rfl, current, 0, rfl, hp, rfl⟩
      | some u =>
        rw [hp] at h
        obtain ⟨p', hp', hne, hl, x, j, hh, hxn, hit⟩ := ih u (current :: acc) l h
        refine ⟨p' ++ [current], by simpa using hp', by simp, ?_, x, j + 1, ?_, hxn, ?_⟩
        · rw [List.getLast?_append_cons]
          rfl
        · cases p' with
          | nil => exact absurd rfl hne
          | cons a t => simpa using hh
        · simp only [prevIter, hp]
          exact hit
    · rw [if_neg hcm] at h
      cases h

/-- Inversion of a `dijkstra` run that returned an ordinary result
dict. -/
theorem dijkstra_ok_inv {g : Graph} {s e : String} {d : Option Int} {p vo : List String}
    (h : dijkstra g s e = .res (.ok d p vo)) :
    d = (dijkstraFinalState g s e).dist e ∧ vo = (dijkstraFinalState g s e).visitOrder ∧
    ∃ p0, reconPath g.nodes (dijkstraFinalState g s e).prev (g.nodes.length + 1) e [] =
        .ok p0 ∧
      p = (if (dijkstraFinalState g s e).dist e ≠ none then p0 else []) := by
  unfold dijkstra at h
  cases hrec : reconPath g.nodes (dijkstraFinalState g s e).prev (g.nodes.length + 1) e []
    with
  | keyErr => rw [hrec] at h; cases h
  | fuelOut => rw [hrec] at h; cases h
  | ok p0 =>
    rw [hrec] at h
    injection h with h
    injection h with h1 h2 h3
    exact ⟨h1.symm, h3.symm, p0, rfl, h2.symm⟩

/-- Inversion of a `bellman_ford` run that returned an ordinary result
dict. -/
theorem bellman_ford_ok_inv {g : Graph} {s e : String} {d : Option Int} {p vo : List String}
    (h : bellman_ford g s e = .res (.ok d p vo)) :
    negScan (bfFinalState g s).dist g.edges = false ∧
    d = (bfFinalState g s).dist e ∧ vo = (bfFinalState g s).visitOrder ∧
    ∃ p0, reconPath g.nodes (bfFinalState g s).prev (g.nodes.length + 1) e [] = .ok p0 ∧
      p = (if (bfFinalState g s).dist e ≠ none then p0 else []) := by
  unfold bellman_ford at h
  cases hscan : negScan (bfFinalState g s).dist g.edges with
  | true =>
    rw [if_pos hscan] at h
    injection h with h
    cases h
  | false =>
    rw [if_neg (by simp [hscan])] at h
    refine ⟨rfl, ?_⟩
    cases hrec : reconPath g.nodes (bfFinalState g s).prev (g.nodes.length + 1) e [] with
    | keyErr => rw [hrec] at h; cases h
    | fuelOut => rw [hrec] at h; cases h
    | ok p0 =>
      rw [hrec] at h
      injection h with h
      injection h with h1 h2 h3
      exact ⟨h1.symm, h3.symm, p0, rfl, h2.symm⟩

/-- Characterization of the inner scan of `is_path_edge`. -/
theorem pathScan_iff :
    ∀ (p : List String) (u v : String),
      pathScan p u v = true ↔ ∃ i, p.get? i = some u ∧ p.get? (i + 1) = some v := by
  intro p
  induction p with
  | nil =>
    intro u v
    simp [pathScan]
  | cons a t ih =>
    intro u v
    cases t with
    | nil =>
      simp only [pathScan, Bool.false_eq_true, false_iff]
      rintro ⟨i, h1, h2⟩
      cases i with
      | zero => cases h2
      | succ i => cases h1
    | cons b t2 =>
      simp only [pathScan, Bool.or_eq_true, Bool.and_eq_true, beq_iff_eq]
      rw [ih]
      constructor
      · rintro (⟨rfl, rfl⟩ | ⟨i, h1, h2⟩)
        · exact ⟨0, rfl, rfl⟩
        · exact ⟨i + 1, h1, h2⟩
      · rintro ⟨i, h1, h2⟩
        cases i with
        | zero =>
          left
          exact ⟨Option.some.inj h1, Option.some.inj h2⟩
        | succ i =>
          right
          exact ⟨i, h1, h2⟩

/-! ### The claims -/

/-- Claim C4: on the demo graph of `__init__` (scenario 1),
`dijkstra('A', 'C')` returns the ordinary result with distance 7 and
path A, B, C (settling order E, B, D, C). -/
theorem dijkstra_scenario1 :
    dijkstra demoGraph "A" "C" =
      .res (.ok (some 7) ["A", "B", "C"] ["E", "B", "D", "C"]) := by
  decide

/-- Claim C2: after the relaxation passes, `bellman_ford` runs one more
scan over all edges; if an edge with finite source distance still
improves, it returns the negative-cycle record, which carries neither a
path nor a distance (the record has no such fields).  On the P, Q, R
graph with the negative cycle Q→R→Q, `bellman_ford('P', 'R')` reports
exactly that. -/
theorem bellman_ford_negcycle_check :
    (∀ (g : Graph) (s e : String),
      negScan (bfFinalState g s).dist g.edges = true →
        bellman_ford g s e = .res .negCycle) ∧
    bellman_ford pqrGraph "P" "R" = .res .negCycle := by
  constructor
  · intro g s e hscan
    unfold bellman_ford
    rw [if_pos hscan]
  · decide

/-- Claim C7: `is_path_edge` on an ordinary result answers exactly
adjacency of `u` then `v` in the stored path; on the stored
negative-cycle record, on no stored result, and on an ordinary record
with empty path (the unreachable case) it is always false. -/
theorem is_path_edge_spec :
    ∀ (d : Option Int) (p vo : List String) (u v : String),
      (is_path_edge (some (.ok d p vo)) u v = true ↔
        ∃ i, p.get? i = some u ∧ p.get? (i + 1) = some v) ∧
      is_path_edge (some .negCycle) u v = false ∧
      is_path_edge none u v = false ∧
      (p = [] → is_path_edge (some (.ok d p vo)) u v = false) := by
  intro d p vo u v
  refine ⟨pathScan_iff p u v, rfl, rfl, ?_⟩
  intro hp
  subst hp
  rfl

/-- Claim C9: the main loop of `dijkstra` removes exactly one node from
the unvisited set per continuing iteration (the selected node is a
member, so erasing it shortens the set by one), and the loop therefore
finishes within `|nodes|` iterations: any extra fuel leaves the result
unchanged. -/
theorem dijkstra_loop_iterations :
    (∀ (dist : String → Option Int) (l : List String) (c : String),
      selectMin dist l = some c → (l.erase c).length + 1 = l.length) ∧
    (∀ (g : Graph) (startId endId : String) (extra : Nat),
      dijkstraLoop (adjOf g) startId endId (g.nodes.length + extra)
          (dijkstraInit g startId) =
        dijkstraLoop (adjOf g) startId endId g.nodes.length (dijkstraInit g startId)) := by
  constructor
  · intro dist l c h
    exact selectMin_erase_length h
  · intro g startId endId extra
    exact dijkstraLoop_fuel g.nodes.length (dijkstraInit g startId)
      (Nat.le_refl _) _ (by omega)

/-- Claim C5: for either algorithm, a returned non-empty path begins at
the start node and ends at the end node.  The head of a reconstructed
path is the chain's terminal, which the invariants identify as the
start node whenever the end node's distance is finite; the last entry
is the end node, pushed first. -/
theorem path_endpoints :
    ∀ (g : Graph) (s e : String) (d : Option Int) (p vo : List String),
      (dijkstra g s e = .res (.ok d p vo) ∨ bellman_ford g s e = .res (.ok d p vo)) →
      p ≠ [] → p.head? = some s ∧ p.getLast? = some e := by
  intro g s e d p vo hres hne
  have hkey : ∀ (dist : String → Option Int) (prev : String → Option String),
      RelaxInv g s dist prev →
      (∃ p0, reconPath g.nodes prev (g.nodes.length + 1) e [] = .ok p0 ∧
        p = (if dist e ≠ none then p0 else [])) →
      p.head? = some s ∧ p.getLast? = some e := by
    intro dist prev base ⟨p0, hrec, hp⟩
    have hfin : dist e ≠ none := by
      intro hdn
      rw [hp, if_neg (by simp [hdn])] at hne
      exact hne rfl
    rw [hp, if_pos hfin] at hne ⊢
    obtain ⟨p', hpeq, hpne, hlast, x, j, hhead, hxn, hit⟩ :=
      reconPath_ok_inv (g.nodes.length + 1) e [] p0 hrec
    rw [List.append_nil] at hpeq
    subst hpeq
    have hxfin : dist x ≠ none := prevIter_finite base j e x hit hfin
    have hxs : x = s := base.start x hxfin hxn
    rw [hhead, hxs, hlast]
    exact ⟨rfl, rfl⟩
  rcases hres with hd | hb
  · obtain ⟨_, _, hrec⟩ := dijkstra_ok_inv hd
    exact hkey _ _
      (dijkstraLoop_relaxInv g.nodes.length (dijkstraInit g s) (relaxInv_init g s)) hrec
  · obtain ⟨_, _, _, hrec⟩ := bellman_ford_ok_inv hb
    exact hkey _ _
      (bfLoop_relaxInv (fun f hf => hf) (g.nodes.length - 1) (bfInit s)
        (relaxInv_init g s)) hrec

/-- Claim C5 witness at a concrete input. -/
theorem path_endpoints_witness :
    (["A", "B", "C"] : List String).head? = some "A" ∧
      (["A", "B", "C"] : List String).getLast? = some "C" :=
  path_endpoints demoGraph "A" "C" (some 7) ["A", "B", "C"] ["E", "B", "D", "C"]
    (Or.inl (by decide)) (by decide)

/-- Claim C8: the visit order of a returned result never contains the
start node and never repeats a node; `dijkstra` records each settled
node once (it leaves the unvisited set for good), `bellman_ford` checks
membership before appending. -/
theorem visit_order_invariant :
    ∀ (g : Graph) (s e : String) (d : Option Int) (p vo : List String),
      g.nodes.Nodup →
      (dijkstra g s e = .res (.ok d p vo) ∨ bellman_ford g s e = .res (.ok d p vo)) →
      s ∉ vo ∧ vo.Nodup := by
  intro g s e d p vo hnd hres
  rcases hres with hd | hb
  · obtain ⟨_, hvo, _⟩ := dijkstra_ok_inv hd
    have hinv : VisitInv s (dijkstraInit g s) := by
      constructor
      · exact List.nodup_nil
      · exact List.not_mem_nil s
      · intro x hx
        cases hx
      · exact hnd
    have hfin := @dijkstraLoop_visitInv (adjOf g) s e g.nodes.length (dijkstraInit g s) hinv
    rw [hvo]
    exact ⟨hfin.nostart, hfin.nodup⟩
  · obtain ⟨_, _, hvo, _⟩ := bellman_ford_ok_inv hb
    have hfin := @bfLoop_visit s g.edges (g.nodes.length - 1) (bfInit s)
      ⟨List.nodup_nil, List.not_mem_nil s⟩
    rw [hvo]
    exact ⟨hfin.2, hfin.1⟩

/-- Claim C8 witness at a concrete input. -/
theorem visit_order_invariant_witness :
    "A" ∉ (["E", "B", "D", "C"] : List String) ∧
      (["E", "B", "D", "C"] : List String).Nodup :=
  visit_order_invariant demoGraph "A" "C" (some 7) ["A", "B", "C"] ["E", "B", "D", "C"]
    (by decide) (Or.inl (by decide))

/-- With a missing start node every stored distance is infinite, so the
first selected node already breaks the loop: the state never changes. -/
theorem dijkstraFinalState_missing_start {g : Graph} {s e : String}
    (hs : s ∉ g.nodes) (hne : g.nodes ≠ []) :
    dijkstraFinalState g s e = dijkstraInit g s := by
  obtain ⟨m, hm⟩ : ∃ m, g.nodes.length = m + 1 := by
    cases hlen : g.nodes.length with
    | zero => exact absurd (List.length_eq_zero.mp hlen) hne
    | succ m => exact ⟨m, rfl⟩
  unfold dijkstraFinalState
  rw [hm]
  cases hsel : selectMin (dijkstraInit g s).dist (dijkstraInit g s).unvisited with
  | none =>
    have hwrong : g.nodes = [] := selectMin_eq_none.mp hsel
    exact absurd hwrong hne
  | some c =>
    have hcm : c ∈ g.nodes := selectMin_mem hsel
    have hcs : c ≠ s := fun h => hs (h ▸ hcm)
    have hdc : (dijkstraInit g s).dist c = none := by
      show updD (fun _ => none) s (some 0) c = none
      rw [updD_ne _ _ _ hcs]
    exact dijkstraLoop_inf hsel hdc

/-- A pass over edges whose sources all have infinite distance changes
nothing. -/
theorem bfPass_noop {startId : String} :
    ∀ (es : List Edge) (st : BState), (∀ e ∈ es, st.dist e.src = none) →
      bfPass startId es (st, false) = (st, false) := by
  intro es
  induction es with
  | nil => intro st _; rfl
  | cons e rest ih =>
    intro st h
    simp only [bfPass]
    rw [if_neg (by simp [h e (List.mem_cons_self _ _)])]
    exact ih st (fun f hf => h f (List.mem_cons_of_mem _ hf))

theorem bfFinalState_missing_start {g : Graph} {s : String}
    (hg : EdgesValid g) (hs : s ∉ g.nodes) :
    bfFinalState g s = bfInit s := by
  have hnone : ∀ e ∈ g.edges, (bfInit s).dist e.src = none := by
    intro e he
    have hneq : e.src ≠ s := fun h => hs (h ▸ (hg e he).1)
    show updD (fun _ => none) s (some 0) e.src = none
    rw [updD_ne _ _ _ hneq]
  unfold bfFinalState
  cases hn : g.nodes.length - 1 with
  | zero => rfl
  | succ m =>
    simp only [bfLoop]
    rw [bfPass_noop g.edges (bfInit s) hnone]
    simp

theorem negScan_noop {dist : String → Option Int} {edges : List Edge}
    (h : ∀ e ∈ edges, dist e.src = none) : negScan dist edges = false := by
  rw [negScan_false_iff]
  intro e he hne
  exact absurd (h e he) hne

/-- Claim C3 (amended): no endpoint validation is performed.  A query
with a missing start but existing end silently returns the
unreachable-shaped record (infinite distance, empty path) from both
algorithms; a query with a missing end raises an uncaught `KeyError`
during path reconstruction (for `bellman_ford`, unless the
negative-cycle record is returned first). -/
theorem invalid_endpoint_behavior :
    (∀ (g : Graph) (s e : String), EdgesValid g → s ∉ g.nodes → e ∈ g.nodes →
      dijkstra g s e = .res (.ok none [] []) ∧
      bellman_ford g s e = .res (.ok none [] [])) ∧
    (∀ (g : Graph) (s e : String), e ∉ g.nodes →
      dijkstra g s e = .keyError ∧
        (bellman_ford g s e = .keyError ∨ bellman_ford g s e = .res .negCycle)) := by
  constructor
  · intro g s e hg hs he
    have hne : g.nodes ≠ [] := List.ne_nil_of_mem he
    have hes : e ≠ s := fun h => hs (h ▸ he)
    have hdE : (dijkstraInit g s).dist e = none := by
      show updD (fun _ => none) s (some 0) e = none
      rw [updD_ne _ _ _ hes]
    constructor
    · have hfs := dijkstraFinalState_missing_start (e := e) hs hne
      unfold dijkstra
      rw [hfs]
      rw [reconPath_terminal he rfl []]
      rw [hdE]
      simp [dijkstraInit]
    · have hfs := bfFinalState_missing_start hg hs
      have hdE' : (bfInit s).dist e = none := by
        show updD (fun _ => none) s (some 0) e = none
        rw [updD_ne _ _ _ hes]
      have hnone : ∀ f ∈ g.edges, (bfInit s).dist f.src = none := by
        intro f hf
        have hneq : f.src ≠ s := fun h => hs (h ▸ (hg f hf).1)
        show updD (fun _ => none) s (some 0) f.src = none
        rw [updD_ne _ _ _ hneq]
      unfold bellman_ford
      rw [hfs]
      rw [if_neg (by simp [negScan_noop hnone])]
      rw [reconPath_terminal he rfl []]
      rw [hdE']
      simp [bfInit]
  · intro g s e he
    constructor
    · unfold dijkstra
      rw [reconPath_keyErr he []]
    · unfold bellman_ford
      by_cases hscan : negScan (bfFinalState g s).dist g.edges = true
      · rw [if_pos hscan]
        right
        rfl
      · left
        rw [if_neg hscan]
        rw [reconPath_keyErr he []]

/-- Claim C3 witness at concrete inputs: on the demo graph, a missing
start with existing end gives the silent unreachable record; a missing
end gives a `KeyError`. -/
theorem invalid_endpoint_behavior_witness :
    (dijkstra demoGraph "Z" "C" = .res (.ok none [] []) ∧
      bellman_ford demoGraph "Z" "C" = .res (.ok none [] [])) ∧
    (dijkstra demoGraph "A" "Z" = .keyError ∧
      (bellman_ford demoGraph "A" "Z" = .keyError ∨
        bellman_ford demoGraph "A" "Z" = .res .negCycle)) :=
  ⟨invalid_endpoint_behavior.1 demoGraph "Z" "C" (by decide) (by decide) (by decide),
    invalid_endpoint_behavior.2 demoGraph "A" "Z" (by decide)⟩

/-- Claim C3 counterexample to the claim as stated: with a valid graph
and a missing start id, the call does not fail: it silently returns an
ordinary result shaped exactly like an unreachable answer (no error of
any kind exists in the code). -/
theorem invalid_endpoint_cex :
    "Z" ∉ demoGraph.nodes ∧
    dijkstra demoGraph "Z" "C" = .res (.ok none [] []) ∧
    bellman_ford demoGraph "Z" "C" = .res (.ok none [] []) := by
  decide

/-- Completeness of the negative-cycle check: when no negative cycle is
reachable from the start, the final scan finds no improving edge (the
pass loop either converged or ran `|nodes| - 1` full passes, enough to
beat every walk after shortening). -/
theorem bf_negScan_false {g : Graph} {s : String} (hg : EdgesValid g)
    (hs : s ∈ g.nodes) (hnc : NoNegCycleFrom g s) :
    negScan (bfFinalState g s).dist g.edges = false := by
  have hbase : RelaxInv g s (bfFinalState g s).dist (bfFinalState g s).prev :=
    bfLoop_relaxInv (fun f hf => hf) (g.nodes.length - 1) (bfInit s) (relaxInv_init g s)
  rcases @bfLoop_upTo g s s (g.nodes.length - 1) 0 (bfInit s) (upTo_init g s) with
    hfix | hup
  · exact negScan_false_iff.mpr hfix
  · rw [negScan_false_iff]
    intro e he hne
    by_contra hlt
    rw [Bool.not_eq_false] at hlt
    cases hdu : (bfFinalState g s).dist e.src with
    | none => exact hne hdu
    | some du =>
      obtain ⟨W, hW, hWw⟩ := hbase.sound e.src du hdu
      have hch2 : EChain g s e.dst (W ++ [e]) :=
        hW.append (EChain.cons e he (EChain.nil e.dst))
      obtain ⟨es', hes', hwle, hlen⟩ :=
        EChain.shorten hg hnc ⟨[], EChain.nil s⟩ hs hch2
      have hpos : 0 < g.nodes.length := List.length_pos.mpr (List.ne_nil_of_mem hs)
      have hlen' : es'.length ≤ 0 + (g.nodes.length - 1) := by omega
      have hub := hup e.dst es' hes' (hes'.edges_mem) hlen'
      have hwW : chainWeight (W ++ [e]) = du + e.weight := by
        rw [chainWeight_append, chainWeight_cons, chainWeight_nil, hWw]
        omega
      have hfinal : ele ((bfFinalState g s).dist e.dst) (some (du + e.weight)) :=
        ele_trans hub (ele_some_mono (by omega))
      rw [hdu] at hlt
      exact eltb_asymm hfinal hlt

/-- Claim C6: `dijkstra` returns the ordinary record whose distance is
the end node's final tentative distance; the path is non-empty exactly
when that distance is finite, and empty (the unreachable case)
otherwise.  On the two-node graph X→Y(5), `dijkstra('Y', 'X')` is
unreachable with empty path. -/
theorem dijkstra_found_iff :
    (∀ (g : Graph) (s e : String), EdgesValid g → g.nodes.Nodup →
      (∀ ed ∈ g.edges, 0 ≤ ed.weight) → s ∈ g.nodes → e ∈ g.nodes →
      ((dijkstraFinalState g s e).dist e ≠ none →
        ∃ p vo, dijkstra g s e = .res (.ok ((dijkstraFinalState g s e).dist e) p vo) ∧
          p ≠ []) ∧
      ((dijkstraFinalState g s e).dist e = none →
        ∃ vo, dijkstra g s e = .res (.ok none [] vo))) ∧
    dijkstra xyGraph "Y" "X" = .res (.ok none [] []) := by
  constructor
  · intro g s e hg hnd hnn hs he
    have hbase : RelaxInv g s (dijkstraFinalState g s e).dist
        (dijkstraFinalState g s e).prev :=
      dijkstraLoop_relaxInv g.nodes.length (dijkstraInit g s) (relaxInv_init g s)
    have hnng : NonnegInv (dijkstraFinalState g s e).dist
        (dijkstraFinalState g s e).prev :=
      dijkstraLoop_nonnegInv hnn g.nodes.length (dijkstraInit g s) (nonnegInv_init s)
    obtain ⟨p, hrec, hpne, hlast, hhead⟩ := recon_spec hg hbase hnng he
    constructor
    · intro hfin
      refine ⟨p, (dijkstraFinalState g s e).visitOrder, ?_, hpne⟩
      unfold dijkstra
      rw [hrec]
      simp [hfin]
    · intro hnone
      refine ⟨(dijkstraFinalState g s e).visitOrder, ?_⟩
      unfold dijkstra
      rw [hrec]
      simp [hnone]
  · decide

/-- Claim C6 witness at a concrete input (the demo graph, where C is
reachable from A). -/
theorem dijkstra_found_iff_witness :
    ∃ p vo, dijkstra demoGraph "A" "C" =
      .res (.ok ((dijkstraFinalState demoGraph "A" "C").dist "C") p vo) ∧ p ≠ [] :=
  ((dijkstra_found_iff.1 demoGraph "A" "C" (by decide) (by decide) (by decide)
    (by decide) (by decide)).1 (by decide))

/-- On a graph that contains `s`, the first node `min` selects is `s`
itself: every other node still has infinite distance. -/
theorem selectMin_init {g : Graph} {s : String} (hs : s ∈ g.nodes) :
    selectMin (dijkstraInit g s).dist g.nodes = some s := by
  cases hsel : selectMin (dijkstraInit g s).dist g.nodes with
  | none => exact absurd (selectMin_eq_none.mp hsel) (List.ne_nil_of_mem hs)
  | some c =>
    have hmin := selectMin_min hsel s hs
    have hds : (dijkstraInit g s).dist s = some 0 := by
      show updD (fun _ => none) s (some 0) s = some 0
      exact updD_same _ _ _
    rw [hds] at hmin
    obtain ⟨y, hy, _⟩ := ele_some_iff.mp hmin
    have hcs : c = s := by
      by_contra hne
      have hnone : (dijkstraInit g s).dist c = none := by
        show updD (fun _ => none) s (some 0) c = none
        rw [updD_ne _ _ _ hne]
      rw [hnone] at hy
      cases hy
    rw [hcs]

/-- Claim C10: a query with equal start and end returns the ordinary
record with distance 0 and path `[s]`; for `dijkstra` the visit order
is empty (the start is selected first, excluded from the visit order,
and the loop exits on reaching the end), and `bellman_ford` does the
same provided no negative cycle is reachable from `s`. -/
theorem same_endpoints_query :
    (∀ (g : Graph) (s : String), s ∈ g.nodes →
      dijkstra g s s = .res (.ok (some 0) [s] [])) ∧
    (∀ (g : Graph) (s : String), EdgesValid g → s ∈ g.nodes → NoNegCycleFrom g s →
      ∃ vo, bellman_ford g s s = .res (.ok (some 0) [s] vo)) := by
  constructor
  · intro g s hs
    obtain ⟨m, hm⟩ : ∃ m, g.nodes.length = m + 1 := by
      cases hlen : g.nodes.length with
      | zero => exact absurd (List.length_eq_zero.mp hlen) (List.ne_nil_of_mem hs)
      | succ m => exact ⟨m, rfl⟩
    have hds : (dijkstraInit g s).dist s = some 0 := by
      show updD (fun _ => none) s (some 0) s = some 0
      exact updD_same _ _ _
    have hsel : selectMin (dijkstraInit g s).dist (dijkstraInit g s).unvisited = some s :=
      selectMin_init hs
    have hfs := @dijkstraLoop_atEnd (adjOf g) s s m (dijkstraInit g s) s hsel
      (by rw [hds]; exact fun h => Option.noConfusion h) rfl
    have hfs' : dijkstraFinalState g s s =
        { dijkstraInit g s with
          unvisited := (dijkstraInit g s).unvisited.erase s
          visitOrder := if s ≠ s then (dijkstraInit g s).visitOrder ++ [s]
            else (dijkstraInit g s).visitOrder } := by
      unfold dijkstraFinalState
      rw [hm]
      exact hfs
    unfold dijkstra
    rw [hfs']
    rw [reconPath_terminal hs rfl []]
    simp [dijkstraInit, updD]
  · intro g s hg hs hnc
    have hscan := bf_negScan_false hg hs hnc
    have hbase : RelaxInv g s (bfFinalState g s).dist (bfFinalState g s).prev :=
      bfLoop_relaxInv (fun f hf => hf) (g.nodes.length - 1) (bfInit s) (relaxInv_init g s)
    obtain ⟨d0, hd0, hds⟩ := hbase.sLe
    have hd00 : d0 = 0 := by
      by_contra hne
      have hdlt : d0 < 0 := lt_of_le_of_ne hd0 hne
      obtain ⟨W, hW, hWw⟩ := hbase.sound s d0 hds
      cases hWnil : W with
      | nil =>
        rw [hWnil] at hWw
        rw [chainWeight_nil] at hWw
        omega
      | cons f fs =>
        have hge := hnc s W ⟨[], EChain.nil s⟩ hW (by rw [hWnil]; simp)
        omega
    subst hd00
    have hprevS : (bfFinalState g s).prev s = none := by
      by_contra hne
      have := hbase.sStrict hne 0 hds
      omega
    refine ⟨(bfFinalState g s).visitOrder, ?_⟩
    unfold bellman_ford
    rw [if_neg (by simp [hscan])]
    rw [reconPath_terminal hs hprevS []]
    rw [hds]
    simp

/-- Claim C10 witness at a concrete input. -/
theorem same_endpoints_query_witness :
    dijkstra demoGraph "A" "A" = .res (.ok (some 0) ["A"] []) ∧
    ∃ vo, bellman_ford demoGraph "A" "A" = .res (.ok (some 0) ["A"] vo) :=
  ⟨same_endpoints_query.1 demoGraph "A" (by decide),
    same_endpoints_query.2 demoGraph "A" (by decide) (by decide)
      (noNegCycleFrom_of_nonneg "A" (by decide))⟩

/-- Two values that are each the weight of some walk and lower bounds of
all walk weights must be equal. -/
theorem dist_eq_of_optsound {g : Graph} {s e : String} {d1 d2 : Option Int}
    (s1 : ∀ x, d1 = some x → ∃ es, EChain g s e es ∧ chainWeight es = x)
    (s2 : ∀ x, d2 = some x → ∃ es, EChain g s e es ∧ chainWeight es = x)
    (o1 : ∀ es, EChain g s e es → ele d1 (some (chainWeight es)))
    (o2 : ∀ es, EChain g s e es → ele d2 (some (chainWeight es))) : d1 = d2 := by
  cases hd1 : d1 with
  | none =>
    cases hd2 : d2 with
    | none => rfl
    | some y =>
      obtain ⟨es, hch, _⟩ := s2 y hd2
      have h := o1 es hch
      rw [hd1] at h
      exact h.elim
  | some x =>
    obtain ⟨es1, hch1, hw1⟩ := s1 x hd1
    cases hd2 : d2 with
    | none =>
      have h := o2 es1 hch1
      rw [hd2] at h
      exact h.elim
    | some y =>
      obtain ⟨es2, hch2, hw2⟩ := s2 y hd2
      have h1 := o1 es2 hch2
      have h2 := o2 es1 hch1
      rw [hd1, hw2] at h1
      rw [hd2, hw1] at h2
      have hx : x ≤ y := h1
      have hy : y ≤ x := h2
      exact congrArg some (le_antisymm hx hy)

/-- Claim C1 (amended): on every valid graph with distinct nodes,
edge endpoints among the nodes, non-negative weights and existing
endpoints, both algorithms return an ordinary record and agree on the
distance (both equal the least walk weight); their paths can differ
when several shortest paths exist. -/
theorem dijkstra_bellman_same_distance :
    ∀ (g : Graph) (s e : String), EdgesValid g → g.nodes.Nodup →
      (∀ ed ∈ g.edges, 0 ≤ ed.weight) → s ∈ g.nodes → e ∈ g.nodes →
      ∃ d p1 vo1 p2 vo2,
        dijkstra g s e = .res (.ok d p1 vo1) ∧
        bellman_ford g s e = .res (.ok d p2 vo2) := by
  intro g s e hg hnd hnn hs he
  have hnc : NoNegCycleFrom g s := noNegCycleFrom_of_nonneg s hnn
  have hfinal : DijkFinal g s e (dijkstraFinalState g s e) :=
    dijkstraLoop_final hg hnn he g.nodes.length (dijkstraInit g s)
      (dijkInv_init s hg hnd) (Nat.le_refl _)
  obtain ⟨p1, hrec1, hpne1, _, _⟩ := recon_spec hg hfinal.base hfinal.nng he
  have hscan := bf_negScan_false hg hs hnc
  have hbase2 : RelaxInv g s (bfFinalState g s).dist (bfFinalState g s).prev :=
    bfLoop_relaxInv (fun f hf => hf) (g.nodes.length - 1) (bfInit s) (relaxInv_init g s)
  have hnng2 : NonnegInv (bfFinalState g s).dist (bfFinalState g s).prev :=
    bfLoop_nonnegInv hnn (g.nodes.length - 1) (bfInit s) (nonnegInv_init s)
  obtain ⟨p2, hrec2, hpne2, _, _⟩ := recon_spec hg hbase2 hnng2 he
  have hfix : FixptOn (bfFinalState g s).dist g.edges := negScan_false_iff.mp hscan
  obtain ⟨d0, hd0, hds⟩ := hbase2.sLe
  have o2 : ∀ es, EChain g s e es →
      ele ((bfFinalState g s).dist e) (some (chainWeight es)) := by
    intro es hch
    exact ele_trans (fixpt_opt hfix hch d0 hds) (ele_some_mono (by omega))
  have hdeq : (dijkstraFinalState g s e).dist e = (bfFinalState g s).dist e := by
    refine dist_eq_of_optsound ?_ ?_ hfinal.opt o2
    · intro x hx
      exact hfinal.base.sound e x hx
    · intro x hx
      exact hbase2.sound e x hx
  refine ⟨(dijkstraFinalState g s e).dist e,
    (if (dijkstraFinalState g s e).dist e ≠ none then p1 else []),
    (dijkstraFinalState g s e).visitOrder,
    (if (bfFinalState g s).dist e ≠ none then p2 else []),
    (bfFinalState g s).visitOrder, ?_, ?_⟩
  · unfold dijkstra
    rw [hrec1]
  · unfold bellman_ford
    rw [if_neg (by simp [hscan]), hrec2, hdeq]

/-- Claim C1 witness at a concrete input. -/
theorem dijkstra_bellman_same_distance_witness :
    ∃ d p1 vo1 p2 vo2,
      dijkstra demoGraph "A" "C" = .res (.ok d p1 vo1) ∧
      bellman_ford demoGraph "A" "C" = .res (.ok d p2 vo2) :=
  dijkstra_bellman_same_distance demoGraph "A" "C" (by decide) (by decide) (by decide)
    (by decide) (by decide)

/-- Claim C1 counterexample to the claim as stated: a valid graph with
non-negative weights (hence no negative cycle) and two shortest S→T
paths of equal weight 3, on which the two algorithms return the same
distance but different paths: `dijkstra` settles A before B and keeps
predecessor A for T, while `bellman_ford` relaxes the edge B→T first in
edge order. -/
theorem dijkstra_bellman_path_differ :
    EdgesValid twoPathGraph ∧ twoPathGraph.nodes.Nodup ∧
    (∀ e ∈ twoPathGraph.edges, 0 ≤ e.weight) ∧
    dijkstra twoPathGraph "S" "T" =
      .res (.ok (some 3) ["S", "A", "T"] ["A", "B", "T"]) ∧
    bellman_ford twoPathGraph "S" "T" =
      .res (.ok (some 3) ["S", "B", "T"] ["A", "B", "T"]) ∧
    (["S", "A", "T"] : List String) ≠ ["S", "B", "T"] := by
  decide

/-- Claim C2 witness at a concrete input: on the P, Q, R graph the final
scan still finds an improving edge, so the negative-cycle record is
returned. -/
theorem bellman_ford_negcycle_check_witness :
    bellman_ford pqrGraph "P" "R" = .res .negCycle :=
  bellman_ford_negcycle_check.1 pqrGraph "P" "R" (by decide)

end SPV
